import Mathlib

/-!
Verification of the `xecs` stage scheduler (`src/stage.rs`) and the
component-storage boundary (`src/components.rs`).

Rust `TypeId` values are modelled as natural numbers.  The `HashMap`s of the
source are modelled as association lists (`List (SysId × α)`); `alInsert`
replaces the value of an existing key in place (as `HashMap::insert` does) and
appends otherwise, `alGet`/`alErase`/`alModify` act on the first occurrence of
a key — on the no-duplicate-keys lists that every reachable `Stage` carries
this coincides with hash-map behaviour, while the scan order of the list
stands in for the (unspecified) iteration order of the hash map.
A Rust panic (`unwrap`, `expect`, `debug_assert!`, arithmetic underflow in a
debug build) is modelled as `none`.
-/

namespace XEcs

/-- `TypeId` of a system, modelled as a natural number. -/
abbrev SysId := Nat

/-- The `TypeId` of the synthetic `End` barrier pseudo-system. -/
def endId : SysId := 0

/-- The `TypeId` of the built-in `Errors` error-registry system. -/
def errorsId : SysId := 1

/-- Mirror of `SystemInfo` in `src/stage.rs`.  The boxed `system` instance is
opaque to the scheduler; the only instance state the claims touch is the set
of producer identities registered inside the `Errors` system, kept here in
`registered` (modelled from the spec: the `Errors` internals live in the
crate's `system.rs`, which is not part of the sources; the spec describes it
as a registry keyed by producing-system identity).  For every system other
than `Errors` the field is unused and stays `[]`. -/
structure SystemInfo where
  dependencies : List SysId
  is_active : Bool
  is_once : Bool
  registered : List SysId
deriving Repr, DecidableEq

/-- Mirror of `Stage` in `src/stage.rs`.  The owned `World` is outside the
claims under verification and is not modelled. -/
structure Stage where
  systems : List (SysId × SystemInfo)
  need_update : Bool
  run_queue : List SysId
  need_init : List SysId
deriving Repr, DecidableEq

/-! ## Association-list primitives (the `HashMap` model) -/

/-- First value stored under `key` (`HashMap::get`). -/
def alGet {α : Type} : List (SysId × α) → SysId → Option α
  | [], _ => none
  | (k, v) :: rest, key => if k = key then some v else alGet rest key

/-- `HashMap::insert`: replace the value of an existing key, else append. -/
def alInsert {α : Type} : List (SysId × α) → SysId → α → List (SysId × α)
  | [], key, v => [(key, v)]
  | (k, w) :: rest, key, v =>
      if k = key then (k, v) :: rest else (k, w) :: alInsert rest key v

/-- `HashMap::remove`: drop the first entry with the given key. -/
def alErase {α : Type} : List (SysId × α) → SysId → List (SysId × α)
  | [], _ => []
  | (k, v) :: rest, key => if k = key then rest else (k, v) :: alErase rest key

/-- `HashMap::get_mut(key).unwrap()` followed by a mutation: `none` models the
panic on a missing key. -/
def alModify {α : Type} : List (SysId × α) → SysId → (α → α) → Option (List (SysId × α))
  | [], _, _ => none
  | (k, v) :: rest, key, f =>
      if k = key then some ((k, f v) :: rest)
      else (alModify rest key f).map (fun l => (k, v) :: l)

/-- `*count -= 1` on a `usize` behind `get_mut(key).unwrap()`: `none` models
both the missing-key panic and the debug-build underflow panic. -/
def alDecr : List (SysId × Nat) → SysId → Option (List (SysId × Nat))
  | [], _ => none
  | (k, v) :: rest, key =>
      if k = key then
        if v = 0 then none else some ((k, v - 1) :: rest)
      else (alDecr rest key).map (fun l => (k, v) :: l)

/-! ## Stage operations (`src/stage.rs`) -/

/-- `Stage::has_system_dyn`. -/
def Stage.has_system_dyn (s : Stage) (system : SysId) : Bool :=
  (alGet s.systems system).isSome

/-- The `self.system_data_mut::<Errors>().register::<T>()` call at the end of
`Stage::add_system` / `add_once_system`.  `system_data_mut` panics
(`debug_assert!` + `unwrap`) when the `Errors` system is absent.  `register`
is modelled from the spec: it records the added system's identity in the
error registry held inside the `Errors` instance. -/
def registerInErrors (systems : List (SysId × SystemInfo)) (id : SysId) :
    Option (List (SysId × SystemInfo)) :=
  alModify systems errorsId (fun info => { info with registered := info.registered ++ [id] })

/-- `Stage::add_system::<T>`; `id` stands for `TypeId::of::<T>()` and `deps`
for `T::Dependencies::dependencies()`. -/
def Stage.add_system (s : Stage) (id : SysId) (deps : List SysId) : Option Stage :=
  match registerInErrors (alInsert s.systems id ⟨deps, true, false, []⟩) id with
  | none => none
  | some systems2 =>
      some { s with
        need_update := true
        need_init := s.need_init ++ [id]
        systems := systems2 }

/-- `Stage::add_once_system::<T>` (identical to `add_system` except for the
`is_once` flag). -/
def Stage.add_once_system (s : Stage) (id : SysId) (deps : List SysId) : Option Stage :=
  match registerInErrors (alInsert s.systems id ⟨deps, true, true, []⟩) id with
  | none => none
  | some systems2 =>
      some { s with
        need_update := true
        need_init := s.need_init ++ [id]
        systems := systems2 }

/-- `Stage::deactivate_dyn`: `debug_assert!` that the system exists, then
clear its active flag. -/
def Stage.deactivate_dyn (s : Stage) (system : SysId) : Option Stage :=
  match alModify s.systems system (fun info => { info with is_active := false }) with
  | none => none
  | some systems2 => some { s with systems := systems2 }

/-- `Stage::activate_dyn`. -/
def Stage.activate_dyn (s : Stage) (system : SysId) : Option Stage :=
  match alModify s.systems system (fun info => { info with is_active := true }) with
  | none => none
  | some systems2 => some { s with systems := systems2 }

/-- `Stage::add_dependency::<Src, Dep>`: panics when `Src` is not in the
stage or when the edge is already present; otherwise pushes the edge.
Note that the source does **not** touch `need_update` here. -/
def Stage.add_dependency (s : Stage) (src dep : SysId) : Option Stage :=
  match alGet s.systems src with
  | none => none
  | some info =>
      if dep ∈ info.dependencies then none
      else some { s with
        systems := alInsert s.systems src
          { info with dependencies := info.dependencies ++ [dep] } }

/-- `Stage::remove_dependency::<Src, Dep>`: panics when `Src` is not in the
stage or when the edge is absent; otherwise removes the first occurrence.
Note that the source does **not** touch `need_update` here. -/
def Stage.remove_dependency (s : Stage) (src dep : SysId) : Option Stage :=
  match alGet s.systems src with
  | none => none
  | some info =>
      if dep ∈ info.dependencies then
        some { s with
          systems := alInsert s.systems src
            { info with dependencies := info.dependencies.erase dep } }
      else none

/-! ## The schedule rebuild (`Stage::update`, Kahn's algorithm) -/

/-- The dependency graph underlying the registry: each system id paired with
its declared dependency list.  Everything in `Stage::update` reads only this
projection of the registry. -/
def graphOf (systems : List (SysId × SystemInfo)) : List (SysId × List SysId) :=
  systems.map (fun p => (p.1, p.2.dependencies))

/-- The initialization loop of `Stage::update`: `inverse_map` gets an empty
consumer list per registered system, then `inverse_map.insert(End, vec![])`. -/
def initInv (g : List (SysId × List SysId)) : List (SysId × List SysId) :=
  alInsert (g.foldl (fun m p => alInsert m p.1 []) []) endId []

/-- The initialization loop of `Stage::update`: `enter_edges_count` maps each
registered system to the length of its dependency list. -/
def initCounts (g : List (SysId × List SysId)) : List (SysId × Nat) :=
  g.foldl (fun m p => alInsert m p.1 p.2.length) []

/-- The inner loop of the build-inverse-map phase: push `sid` onto the
consumer list of each of its dependencies; the `expect("Some dependencies
have not been added to stage")` panic is `none`. -/
def addConsumersOf : List (SysId × List SysId) → SysId → List SysId →
    Option (List (SysId × List SysId))
  | inv, _, [] => some inv
  | inv, sid, d :: ds =>
      match alModify inv d (fun l => l ++ [sid]) with
      | none => none
      | some inv2 => addConsumersOf inv2 sid ds

/-- The build-inverse-map phase of `Stage::update`. -/
def buildInv : List (SysId × List SysId) → List (SysId × List SysId) →
    Option (List (SysId × List SysId))
  | inv, [] => some inv
  | inv, (sid, deps) :: rest =>
      match addConsumersOf inv sid deps with
      | none => none
      | some inv2 => buildInv inv2 rest

/-- `find_zero` of `Stage::update`: the first entry with count zero, skipping
the `End` barrier. -/
def find_zero : List (SysId × Nat) → Option SysId
  | [] => none
  | (k, v) :: rest =>
      if k = endId then find_zero rest
      else if v = 0 then some k else find_zero rest

/-- The `for system in inverse_map.get(&type_id).unwrap().iter()` decrement
loop: decrement each consumer's count in turn. -/
def decrList : List SysId → List (SysId × Nat) → Option (List (SysId × Nat))
  | [], m => some m
  | c :: rest, m =>
      match alDecr m c with
      | none => none
      | some m2 => decrList rest m2

theorem alDecr_length {m m' : List (SysId × Nat)} {key : SysId}
    (h : alDecr m key = some m') : m'.length = m.length := by
  induction m generalizing m' with
  | nil => simp [alDecr] at h
  | cons p rest ih =>
      obtain ⟨k, v⟩ := p
      simp only [alDecr] at h
      by_cases hk : k = key
      · simp [hk] at h
        by_cases hv : v = 0
        · simp [hv] at h
        · simp [hv] at h
          subst h
          simp
      · simp [hk] at h
        obtain ⟨l, hl, rfl⟩ := h
        simp [ih hl]

theorem decrList_length {cs : List SysId} {m m' : List (SysId × Nat)}
    (h : decrList cs m = some m') : m'.length = m.length := by
  induction cs generalizing m with
  | nil => simp [decrList] at h; simp [h]
  | cons c rest ih =>
      simp only [decrList] at h
      cases hd : alDecr m c with
      | none => simp [hd] at h
      | some m2 =>
          simp [hd] at h
          rw [ih h, alDecr_length hd]

theorem find_zero_mem {m : List (SysId × Nat)} {id : SysId}
    (h : find_zero m = some id) : id ∈ m.map Prod.fst := by
  induction m with
  | nil => simp [find_zero] at h
  | cons p rest ih =>
      obtain ⟨k, v⟩ := p
      simp only [find_zero] at h
      by_cases hk : k = endId
      · simp [hk] at h
        simpa using Or.inr (ih h)
      · simp [hk] at h
        by_cases hv : v = 0
        · simp [hv] at h
          simp [h]
        · simp [hv] at h
          simpa using Or.inr (ih h)

theorem alErase_length_lt {α : Type} {m : List (SysId × α)} {key : SysId}
    (h : key ∈ m.map Prod.fst) : (alErase m key).length < m.length := by
  induction m with
  | nil => simp at h
  | cons p rest ih =>
      obtain ⟨k, v⟩ := p
      by_cases hk : k = key
      · simp [alErase, hk]
      · have h' : key ∈ rest.map Prod.fst := by
          simp at h ⊢
          rcases h with h | h
          · exact absurd h.symm hk
          · exact h
        simp [alErase, hk]
        exact ih h'

/-- The `sort` closure of `Stage::update`: repeatedly extract a zero-in-degree
system (skipping `End`), remove it from the count map, append it to the run
queue, and decrement its consumers. -/
def kahnSort (inv : List (SysId × List SysId)) (ecnt : List (SysId × Nat))
    (rq : List SysId) : Option (List (SysId × Nat) × List SysId) :=
  match h : find_zero ecnt with
  | none => some (ecnt, rq)
  | some id =>
      match alGet inv id with
      | none => none
      | some consumers =>
          match h2 : decrList consumers (alErase ecnt id) with
          | none => none
          | some ecnt2 => kahnSort inv ecnt2 (rq ++ [id])
termination_by ecnt.length
decreasing_by
  rw [decrList_length h2]
  exact alErase_length_lt (find_zero_mem h)

/-- `Stage::update`: rebuild the run queue when the dirty flag is set.  Note
the faithful omission: the source never clears `need_update`, and when the
flag is clear it returns without touching the cached `run_queue`. -/
def Stage.update (s : Stage) : Option Stage :=
  if s.need_update = false then some s
  else
    match buildInv (initInv (graphOf s.systems)) (graphOf s.systems) with
    | none => none
    | some inv =>
        match kahnSort inv (initCounts (graphOf s.systems)) [] with
        | none => none
        | some (ecnt1, rq1) =>
            match alGet inv endId with
            | none => some { s with run_queue := rq1 }
            | some consumers =>
                match decrList consumers ecnt1 with
                | none => none
                | some ecnt2 =>
                    match kahnSort inv ecnt2 rq1 with
                    | none => none
                    | some (_, rq2) => some { s with run_queue := rq2 }

/-! ## `Stage::run` -/

/-- The execution loop of `Stage::run` over the cached queue: returns the
trace of systems whose hook is invoked and the `remove_list` of once-systems,
both in queue order; `none` models the `systems.get(type_id).unwrap()` panic. -/
def execPass (systems : List (SysId × SystemInfo)) :
    List SysId → Option (List SysId × List SysId)
  | [] => some ([], [])
  | id :: rest =>
      match alGet systems id with
      | none => none
      | some info =>
          match execPass systems rest with
          | none => none
          | some (tr, rm) =>
              if info.is_active then
                if info.is_once then some (id :: tr, id :: rm)
                else some (id :: tr, rm)
              else some (tr, rm)

/-- `Stage::run`: rebuild if dirty, initialize every pending system (a panic
if one is unregistered), clear the pending list, execute the cached order
skipping inactive systems, then drop the once-systems that ran.  The returned
list is the trace of executed (hook-invoked) system ids; the hooks themselves
only receive a shared `&Stage` and so cannot change the registry, the flags
or the schedule — their effects on system-internal and world data are outside
the model. -/
def Stage.run (s : Stage) : Option (Stage × List SysId) :=
  match s.update with
  | none => none
  | some s1 =>
      if s1.need_init.all (fun id => (alGet s1.systems id).isSome) then
        match execPass s1.systems s1.run_queue with
        | none => none
        | some (tr, rm) =>
            some ({ s1 with
              need_init := []
              systems := rm.foldl (fun m id => alErase m id) s1.systems }, tr)
      else none

/-! ## Constructors -/

/-- The bare struct literal inside `Stage::new` / `Stage::from_world`. -/
def mkStage0 : Stage :=
  { systems := [], need_update := false, run_queue := [], need_init := [] }

/-- The dependency list of the built-in `Errors` system.  Modelled from the
spec: `Errors` is a privileged built-in registry with no declared
dependencies (its `System` impl lives in the crate's `system.rs`, which is
not part of the sources). -/
def errorsDependencies : List SysId := []

/-- `Stage::new`: construct the bare stage, `add_system(Errors::new())`,
`deactivate::<Errors>()`.  Both calls succeed on the concrete empty stage, so
the `getD` default is never taken. -/
def Stage.new : Stage :=
  ((mkStage0.add_system errorsId errorsDependencies).bind
    (fun s => s.deactivate_dyn errorsId)).getD mkStage0

/-- `Stage::from_world`: identical to `Stage::new` except for the (unmodelled)
world it starts from. -/
def Stage.from_world : Stage :=
  ((mkStage0.add_system errorsId errorsDependencies).bind
    (fun s => s.deactivate_dyn errorsId)).getD mkStage0

/-! ## Sparse-set component storage (`src/components.rs`) -/

/-- Modelled from the spec: the `SparseSet` of the external `xsparseset`
crate, as described in §3/§4.1 — a dense sequence of (entity, value) pairs
plus a sparse map from entity to dense slot; removal swaps the removed entry
with the last dense entry, updates the displaced entity's sparse pointer and
erases the removed entity's pointer.  Values are modelled as naturals. -/
structure SparseSet where
  dense : List (Nat × Nat)
  sparse : List (Nat × Nat)
deriving Repr, DecidableEq

/-- `SparseSet::get_index`. -/
def SparseSet.get_index (s : SparseSet) (id : Nat) : Option Nat :=
  alGet s.sparse id

/-- `SparseSet::exist`. -/
def SparseSet.exist (s : SparseSet) (id : Nat) : Bool :=
  (s.get_index id).isSome

/-- `SparseSet::len`. -/
def SparseSet.len (s : SparseSet) : Nat := s.dense.length

/-- Modelled from the spec: `SparseSet::remove`, returning `none` when the
entity is absent (the caller in `components.rs` unwraps this).  Under the
storage invariant the dense list is nonempty whenever an entity is present;
the inner `none` branch is unreachable then. -/
def SparseSet.removeEntry (s : SparseSet) (id : Nat) : Option SparseSet :=
  match s.get_index id with
  | none => none
  | some i =>
      match s.dense.getLast? with
      | none => none
      | some lastPair =>
          some { dense := (s.dense.set i lastPair).dropLast
                 sparse := alErase (alInsert s.sparse lastPair.1 i) id }

/-- `<SparseSet as ComponentStorage>::has` (`src/components.rs`). -/
def ComponentStorage.has (s : SparseSet) (entity_id : Nat) : Bool :=
  s.exist entity_id

/-- `<SparseSet as ComponentStorage>::index` (`src/components.rs`). -/
def ComponentStorage.index (s : SparseSet) (entity_id : Nat) : Option Nat :=
  s.get_index entity_id

/-- `<SparseSet as ComponentStorage>::remove` (`src/components.rs`):
`self.remove(entity_id).unwrap()` — the unwrap turns an absent entity into a
panic (`none`). -/
def ComponentStorage.remove (s : SparseSet) (entity_id : Nat) : Option SparseSet :=
  s.removeEntry entity_id

/-- `<SparseSet as ComponentStorage>::count` (`src/components.rs`). -/
def ComponentStorage.count (s : SparseSet) : Nat :=
  s.len

/-! ## Specification-side definitions used to state and prove the claims -/

/-- The key list of an association list. -/
def keysOf {α : Type} (m : List (SysId × α)) : List SysId :=
  m.map Prod.fst

/-- The declared dependencies of `c` in a dependency graph. -/
def depsOf (g : List (SysId × List SysId)) (c : SysId) : List SysId :=
  (alGet g c).getD []

/-- The consumer list the build-inverse-map phase accumulates for key `x`:
each system contributes one copy of itself per occurrence of `x` in its
dependency list, in registry order. -/
def consumersOf (g : List (SysId × List SysId)) (x : SysId) : List SysId :=
  g.flatMap (fun p => List.replicate (p.2.count x) p.1)

/-- The in-degree Kahn's algorithm maintains for a dependency list: the number
of dependency occurrences not yet scheduled — those naming a still-alive
system, plus (before the barrier release) those naming `End`. -/
def pendingCount (alive : List SysId) (rel : Bool) (deps : List SysId) : Nat :=
  deps.countP (fun d => decide (d ∈ alive) || (!rel && decide (d = endId)))

/-- Well-formedness of a stage's dependency graph: no duplicate registrations,
the synthetic `End` barrier is not itself registered, and every declared
dependency names a registered system or the barrier. -/
structure GraphOK (g : List (SysId × List SysId)) : Prop where
  nodup : (keysOf g).Nodup
  endNotMem : endId ∉ keysOf g
  depsOK : ∀ p ∈ g, ∀ d ∈ p.2, d ∈ keysOf g ∨ d = endId

/-- Acyclicity of the dependency graph, phrased as the existence of a rank
function strictly decreasing along dependency edges. -/
def AcyclicGraph (g : List (SysId × List SysId)) : Prop :=
  ∃ r : SysId → Nat, ∀ p ∈ g, ∀ d ∈ p.2, r d < r p.1

/-- `DepEnd g c`: system `c` depends, directly or transitively, on the
synthetic `End` barrier. -/
inductive DepEnd (g : List (SysId × List SysId)) : SysId → Prop where
  | direct : ∀ c, c ∈ keysOf g → endId ∈ depsOf g c → DepEnd g c
  | step : ∀ c d, c ∈ keysOf g → d ∈ depsOf g c → DepEnd g d → DepEnd g c

/-- The loop invariant of the `sort` closure: `ecnt` is the in-degree map of
the still-unscheduled systems, `rq` the queue built so far, `rel` records
whether the `End` barrier has been released. -/
structure KInv (g : List (SysId × List SysId)) (rel : Bool)
    (ecnt : List (SysId × Nat)) (rq : List SysId) : Prop where
  sub : ∀ k ∈ keysOf ecnt, k ∈ keysOf g
  rqSub : ∀ c ∈ rq, c ∈ keysOf g
  nodupAll : (rq ++ keysOf ecnt).Nodup
  partAll : ∀ k ∈ keysOf g, k ∈ rq ∨ k ∈ keysOf ecnt
  counts : ∀ p ∈ ecnt, p.2 = pendingCount (keysOf ecnt) rel (depsOf g p.1)
  ordered : ∀ l1 c l2, rq = l1 ++ c :: l2 → ∀ d ∈ depsOf g c, d ≠ endId → d ∈ l1
  endAlive : rel = false → ∀ k, DepEnd g k → k ∈ keysOf ecnt

/-- The invariant every reachable `Stage` keeps for claim C10: the `Errors`
record is registered and not once-marked. -/
def ErrorsKept (s : Stage) : Prop :=
  ∃ info, alGet s.systems errorsId = some info ∧ info.is_once = false

/-! ## Association-list lemmas -/

theorem alGet_eq_none {α : Type} {m : List (SysId × α)} {k : SysId} :
    alGet m k = none ↔ k ∉ keysOf m := by
  induction m with
  | nil => simp [alGet, keysOf]
  | cons p rest ih =>
      obtain ⟨k0, v0⟩ := p
      by_cases hk : k0 = k
      · subst hk
        simp [alGet, keysOf]
      · rw [show alGet ((k0, v0) :: rest) k = alGet rest k by simp [alGet, hk]]
        rw [ih]
        have : k ∈ keysOf ((k0, v0) :: rest) ↔ k ∈ keysOf rest := by
          simp [keysOf, Ne.symm hk]
        rw [this]

theorem alGet_isSome {α : Type} {m : List (SysId × α)} {k : SysId} :
    (alGet m k).isSome ↔ k ∈ keysOf m := by
  rw [Option.isSome_iff_ne_none]
  constructor
  · intro h
    by_contra hmem
    exact h (alGet_eq_none.mpr hmem)
  · intro h hnone
    exact alGet_eq_none.mp hnone h

theorem alGet_mem {α : Type} {m : List (SysId × α)} {k : SysId} {v : α}
    (h : alGet m k = some v) : (k, v) ∈ m := by
  induction m with
  | nil => simp [alGet] at h
  | cons p rest ih =>
      obtain ⟨k0, v0⟩ := p
      simp only [alGet] at h
      by_cases hk : k0 = k
      · subst hk
        simp at h
        simp [h]
      · simp [hk] at h
        exact List.mem_cons_of_mem _ (ih h)

theorem mem_alGet {α : Type} {m : List (SysId × α)} {k : SysId} {v : α}
    (hnd : (keysOf m).Nodup) (h : (k, v) ∈ m) : alGet m k = some v := by
  induction m with
  | nil => simp at h
  | cons p rest ih =>
      obtain ⟨k0, v0⟩ := p
      simp only [keysOf, List.map_cons, List.nodup_cons] at hnd
      rcases List.mem_cons.mp h with h | h
      · injection h with h1 h2
        subst h1
        subst h2
        simp [alGet]
      · have hne : k0 ≠ k := by
          rintro rfl
          exact hnd.1 (List.mem_map.mpr ⟨(k0, v), h, rfl⟩)
        rw [show alGet ((k0, v0) :: rest) k = alGet rest k by simp [alGet, hne]]
        exact ih hnd.2 h

theorem alGet_mapVals {α β : Type} (f : SysId → α → β) (m : List (SysId × α)) (k : SysId) :
    alGet (m.map (fun p => (p.1, f p.1 p.2))) k = (alGet m k).map (f k) := by
  induction m with
  | nil => simp [alGet]
  | cons p rest ih =>
      obtain ⟨k0, v0⟩ := p
      by_cases hk : k0 = k
      · subst hk
        simp [alGet]
      · simp [alGet, hk, ih]

theorem alGet_append {α : Type} (m1 m2 : List (SysId × α)) (k : SysId) :
    alGet (m1 ++ m2) k =
      match alGet m1 k with
      | some v => some v
      | none => alGet m2 k := by
  induction m1 with
  | nil => simp [alGet]
  | cons p rest ih =>
      obtain ⟨k0, v0⟩ := p
      by_cases hk : k0 = k
      · simp [alGet, hk]
      · simp [alGet, hk, ih]

theorem alGet_alInsert_self {α : Type} (m : List (SysId × α)) (k : SysId) (v : α) :
    alGet (alInsert m k v) k = some v := by
  induction m with
  | nil => simp [alInsert, alGet]
  | cons p rest ih =>
      obtain ⟨k0, v0⟩ := p
      by_cases hk : k0 = k
      · simp [alInsert, hk, alGet]
      · simp [alInsert, hk, alGet, ih]

theorem alGet_alInsert_ne {α : Type} (m : List (SysId × α)) (k k' : SysId) (v : α)
    (h : k' ≠ k) : alGet (alInsert m k v) k' = alGet m k' := by
  induction m with
  | nil => simp [alInsert, alGet, Ne.symm h]
  | cons p rest ih =>
      obtain ⟨k0, v0⟩ := p
      by_cases hk : k0 = k
      · subst hk
        simp [alInsert, alGet, Ne.symm h]
      · by_cases hk' : k0 = k'
        · subst hk'
          simp [alInsert, hk, alGet]
        · simp [alInsert, hk, alGet, hk', ih]

theorem keysOf_alInsert_mem {α : Type} {m : List (SysId × α)} {k : SysId} (v : α)
    (h : k ∈ keysOf m) : keysOf (alInsert m k v) = keysOf m := by
  induction m with
  | nil => simp [keysOf] at h
  | cons p rest ih =>
      obtain ⟨k0, v0⟩ := p
      by_cases hk : k0 = k
      · simp [alInsert, hk, keysOf]
      · have h' : k ∈ keysOf rest := by
          rcases List.mem_cons.mp h with h | h
          · exact absurd h.symm hk
          · exact h
        rw [show alInsert ((k0, v0) :: rest) k v = (k0, v0) :: alInsert rest k v by
          simp [alInsert, hk]]
        show k0 :: keysOf (alInsert rest k v) = k0 :: keysOf rest
        rw [ih h']

theorem alInsert_not_mem {α : Type} {m : List (SysId × α)} {k : SysId} (v : α)
    (h : k ∉ keysOf m) : alInsert m k v = m ++ [(k, v)] := by
  induction m with
  | nil => simp [alInsert]
  | cons p rest ih =>
      obtain ⟨k0, v0⟩ := p
      have hne : k0 ≠ k := by
        rintro rfl
        exact h (List.mem_cons_self _ _)
      have h' : k ∉ keysOf rest := fun hx => h (List.mem_cons_of_mem _ hx)
      simp [alInsert, hne, ih h']

theorem keysOf_alErase {α : Type} (m : List (SysId × α)) (k : SysId) :
    keysOf (alErase m k) = (keysOf m).erase k := by
  induction m with
  | nil => simp [alErase, keysOf]
  | cons p rest ih =>
      obtain ⟨k0, v0⟩ := p
      by_cases hk : k0 = k
      · subst hk
        simp [alErase, keysOf]
      · rw [show alErase ((k0, v0) :: rest) k = (k0, v0) :: alErase rest k by
          simp [alErase, hk]]
        rw [show keysOf ((k0, v0) :: alErase rest k) = k0 :: keysOf (alErase rest k) from rfl]
        rw [show keysOf ((k0, v0) :: rest) = k0 :: keysOf rest from rfl]
        rw [List.erase_cons_tail (by simpa using hk), ih]

theorem alGet_alErase_ne {α : Type} (m : List (SysId × α)) (j k : SysId)
    (h : j ≠ k) : alGet (alErase m j) k = alGet m k := by
  induction m with
  | nil => simp [alErase]
  | cons p rest ih =>
      obtain ⟨k0, v0⟩ := p
      by_cases hj : k0 = j
      · subst hj
        simp [alErase, alGet, h]
      · by_cases hk : k0 = k
        · subst hk
          simp [alErase, Ne.symm h, alGet]
        · simp [alErase, hj, alGet, hk, ih]

theorem alGet_alErase_self {α : Type} {m : List (SysId × α)} {k : SysId}
    (hnd : (keysOf m).Nodup) : alGet (alErase m k) k = none := by
  induction m with
  | nil => simp [alErase, alGet]
  | cons p rest ih =>
      obtain ⟨k0, v0⟩ := p
      simp only [keysOf, List.map_cons, List.nodup_cons] at hnd
      by_cases hk : k0 = k
      · subst hk
        simp [alErase]
        exact alGet_eq_none.mpr hnd.1
      · simp [alErase, hk, alGet, hk]
        exact ih hnd.2

theorem alModify_eq_none {α : Type} {m : List (SysId × α)} {k : SysId} {f : α → α} :
    alModify m k f = none ↔ k ∉ keysOf m := by
  induction m with
  | nil => simp [alModify, keysOf]
  | cons p rest ih =>
      obtain ⟨k0, v0⟩ := p
      by_cases hk : k0 = k
      · subst hk
        simp [alModify, keysOf]
      · rw [show alModify ((k0, v0) :: rest) k f
            = (alModify rest k f).map (fun l => (k0, v0) :: l) by simp [alModify, hk]]
        have : k ∈ keysOf ((k0, v0) :: rest) ↔ k ∈ keysOf rest := by
          simp [keysOf, Ne.symm hk]
        rw [this, ← ih]
        cases alModify rest k f <;> simp

theorem alModify_some {α : Type} {m : List (SysId × α)} {k : SysId} {v : α} (f : α → α)
    (h : alGet m k = some v) : alModify m k f = some (alInsert m k (f v)) := by
  induction m with
  | nil => simp [alGet] at h
  | cons p rest ih =>
      obtain ⟨k0, v0⟩ := p
      by_cases hk : k0 = k
      · subst hk
        simp only [alGet, if_pos rfl] at h
        injection h with h
        subst h
        simp [alModify, alInsert]
      · rw [show alGet ((k0, v0) :: rest) k = alGet rest k by simp [alGet, hk]] at h
        rw [show alModify ((k0, v0) :: rest) k f
            = (alModify rest k f).map (fun l => (k0, v0) :: l) by simp [alModify, hk]]
        rw [ih h]
        simp [alInsert, hk]

theorem alDecr_some {m : List (SysId × Nat)} {k : SysId} {v : Nat}
    (h : alGet m k = some v) (hv : v ≠ 0) :
    alDecr m k = some (alInsert m k (v - 1)) := by
  induction m with
  | nil => simp [alGet] at h
  | cons p rest ih =>
      obtain ⟨k0, v0⟩ := p
      by_cases hk : k0 = k
      · subst hk
        simp only [alGet, if_pos rfl] at h
        injection h with h
        subst h
        simp [alDecr, hv, alInsert]
      · rw [show alGet ((k0, v0) :: rest) k = alGet rest k by simp [alGet, hk]] at h
        rw [show alDecr ((k0, v0) :: rest) k
            = (alDecr rest k).map (fun l => (k0, v0) :: l) by simp [alDecr, hk]]
        rw [ih h]
        simp [alInsert, hk]

/-- `decrList` specification: when every decremented key is present with a
count at least the number of upcoming decrements, the loop succeeds, keys are
preserved and every count drops by the key's multiplicity in the list. -/
theorem decrList_spec (cs : List SysId) (m : List (SysId × Nat))
    (hmem : ∀ c ∈ cs, c ∈ keysOf m)
    (hge : ∀ c, cs.count c ≤ (alGet m c).getD 0) :
    ∃ m', decrList cs m = some m' ∧ keysOf m' = keysOf m ∧
      ∀ k v, alGet m k = some v → alGet m' k = some (v - cs.count k) := by
  induction cs generalizing m with
  | nil =>
      exact ⟨m, rfl, rfl, by intro k v h; simpa using h⟩
  | cons c rest ih =>
      have hc : c ∈ keysOf m := hmem c (List.mem_cons_self _ _)
      obtain ⟨v, hv⟩ := Option.isSome_iff_exists.mp (alGet_isSome.mpr hc)
      have hcount : (c :: rest).count c ≤ v := by
        have := hge c
        rw [hv] at this
        simpa using this
      have hvne : v ≠ 0 := by
        have : 1 ≤ (c :: rest).count c := by simp [List.count_cons]
        omega
      have hdec : alDecr m c = some (alInsert m c (v - 1)) := alDecr_some hv hvne
      set m2 := alInsert m c (v - 1) with hm2
      have hkeys2 : keysOf m2 = keysOf m := keysOf_alInsert_mem _ hc
      have hget2 : ∀ k, alGet m2 k = if k = c then some (v - 1) else alGet m k := by
        intro k
        by_cases hk : k = c
        · subst hk
          simp [hm2, alGet_alInsert_self]
        · simp [hm2, alGet_alInsert_ne _ _ _ _ hk, hk]
      have hmem2 : ∀ d ∈ rest, d ∈ keysOf m2 := by
        intro d hd
        rw [hkeys2]
        exact hmem d (List.mem_cons_of_mem _ hd)
      have hge2 : ∀ d, rest.count d ≤ (alGet m2 d).getD 0 := by
        intro d
        by_cases hd : d = c
        · subst hd
          have h2 : (alGet m2 d).getD 0 = v - 1 := by rw [hget2]; simp
          have hcc : (d :: rest).count d = rest.count d + 1 := by simp [List.count_cons]
          rw [h2]
          omega
        · have hcnt := hge d
          have hcc : (c :: rest).count d = rest.count d := by
            simp [List.count_cons, Ne.symm hd]
          rw [hcc] at hcnt
          have h2 : alGet m2 d = alGet m d := by rw [hget2]; simp [hd]
          rw [h2]
          exact hcnt
      obtain ⟨m', hrun, hkeys', hget'⟩ := ih m2 hmem2 hge2
      refine ⟨m', ?_, by rw [hkeys', hkeys2], ?_⟩
      · show (match alDecr m c with
          | none => none
          | some m3 => decrList rest m3) = some m'
        rw [hdec]
        exact hrun
      · intro k w hw
        by_cases hk : k = c
        · have hwv : w = v := by
            rw [hk, hv] at hw
            injection hw with h
            exact h.symm
          rw [hk, hwv]
          have h2 : alGet m2 c = some (v - 1) := by rw [hget2]; simp
          rw [hget' c (v - 1) h2]
          have hcc : (c :: rest).count c = rest.count c + 1 := by simp [List.count_cons]
          rw [hcc]
          congr 1
          omega
        · have h2 : alGet m2 k = some w := by rw [hget2]; simp [hk, hw]
          rw [hget' k w h2]
          have hcc : (c :: rest).count k = rest.count k := by
            simp [List.count_cons, hk]
          rw [hcc]

theorem alGet_foldlErase_not_mem {α : Type} (ids : List SysId) (m : List (SysId × α))
    (k : SysId) (h : k ∉ ids) :
    alGet (ids.foldl (fun acc id => alErase acc id) m) k = alGet m k := by
  induction ids generalizing m with
  | nil => rfl
  | cons i rest ih =>
      have hik : i ≠ k := by
        rintro rfl
        exact h (List.mem_cons_self _ _)
      have h' : k ∉ rest := fun hx => h (List.mem_cons_of_mem _ hx)
      rw [List.foldl_cons, ih _ h', alGet_alErase_ne _ _ _ hik]

theorem alGet_foldlErase_absent {α : Type} (ids : List SysId) (m : List (SysId × α))
    (k : SysId) (h : alGet m k = none) :
    alGet (ids.foldl (fun acc id => alErase acc id) m) k = none := by
  induction ids generalizing m with
  | nil => exact h
  | cons i rest ih =>
      rw [List.foldl_cons]
      apply ih
      by_cases hik : i = k
      · subst hik
        apply alGet_eq_none.mpr
        rw [keysOf_alErase]
        intro hx
        exact alGet_eq_none.mp h (List.mem_of_mem_erase hx)
      · rw [alGet_alErase_ne _ _ _ hik]
        exact h

theorem nodup_keysOf_alErase {α : Type} {m : List (SysId × α)} (k : SysId)
    (h : (keysOf m).Nodup) : (keysOf (alErase m k)).Nodup := by
  rw [keysOf_alErase]
  exact h.erase k

theorem alGet_foldlErase_mem {α : Type} (ids : List SysId) (m : List (SysId × α))
    (k : SysId) (hnd : (keysOf m).Nodup) (h : k ∈ ids) :
    alGet (ids.foldl (fun acc id => alErase acc id) m) k = none := by
  induction ids generalizing m with
  | nil => simp at h
  | cons i rest ih =>
      rw [List.foldl_cons]
      by_cases hik : i = k
      · subst hik
        exact alGet_foldlErase_absent _ _ _ (alGet_alErase_self hnd)
      · have h' : k ∈ rest := by
          rcases List.mem_cons.mp h with h | h
          · exact absurd h.symm hik
          · exact h
        exact ih _ (nodup_keysOf_alErase _ hnd) h'

/-! ## `find_zero` characterization -/

theorem find_zero_some {m : List (SysId × Nat)} {x : SysId}
    (h : find_zero m = some x) : x ≠ endId ∧ (x, 0) ∈ m := by
  induction m with
  | nil => simp [find_zero] at h
  | cons p rest ih =>
      obtain ⟨k, v⟩ := p
      by_cases hk : k = endId
      · rw [show find_zero ((k, v) :: rest) = find_zero rest by simp [find_zero, hk]] at h
        obtain ⟨h1, h2⟩ := ih h
        exact ⟨h1, List.mem_cons_of_mem _ h2⟩
      · by_cases hv : v = 0
        · subst hv
          rw [show find_zero ((k, 0) :: rest) = some k by simp [find_zero, hk]] at h
          injection h with h
          subst h
          exact ⟨hk, List.mem_cons_self _ _⟩
        · rw [show find_zero ((k, v) :: rest) = find_zero rest by
            simp [find_zero, hk, hv]] at h
          obtain ⟨h1, h2⟩ := ih h
          exact ⟨h1, List.mem_cons_of_mem _ h2⟩

theorem find_zero_none {m : List (SysId × Nat)} (h : find_zero m = none) :
    ∀ p ∈ m, p.1 ≠ endId → p.2 ≠ 0 := by
  induction m with
  | nil => simp
  | cons p rest ih =>
      obtain ⟨k, v⟩ := p
      intro q hq hqe
      by_cases hk : k = endId
      · rw [show find_zero ((k, v) :: rest) = find_zero rest by simp [find_zero, hk]] at h
        rcases List.mem_cons.mp hq with hq | hq
        · subst hq
          exact absurd hk hqe
        · exact ih h q hq hqe
      · by_cases hv : v = 0
        · subst hv
          rw [show find_zero ((k, 0) :: rest) = some k by simp [find_zero, hk]] at h
          exact absurd h (by simp)
        · rw [show find_zero ((k, v) :: rest) = find_zero rest by
            simp [find_zero, hk, hv]] at h
          rcases List.mem_cons.mp hq with hq | hq
          · subst hq
            exact hv
          · exact ih h q hq hqe

/-! ## `pendingCount` arithmetic -/

theorem pendingCount_all (alive : List SysId) (rel : Bool) (deps : List SysId)
    (h : ∀ d ∈ deps, d ∈ alive ∨ (rel = false ∧ d = endId)) :
    pendingCount alive rel deps = deps.length := by
  rw [pendingCount, List.countP_eq_length]
  intro d hd
  rcases h d hd with h | ⟨h1, h2⟩
  · simp [h]
  · subst h1
    simp [h2]

theorem pendingCount_pos {alive : List SysId} {rel : Bool} {deps : List SysId} {d : SysId}
    (hd : d ∈ deps) (h : d ∈ alive ∨ (rel = false ∧ d = endId)) :
    pendingCount alive rel deps ≠ 0 := by
  have : 0 < pendingCount alive rel deps := by
    rw [pendingCount, List.countP_pos]
    refine ⟨d, hd, ?_⟩
    rcases h with h | ⟨h1, h2⟩
    · simp [h]
    · subst h1
      simp [h2]
  omega

theorem pendingCount_zero {alive : List SysId} {rel : Bool} {deps : List SysId}
    (h : pendingCount alive rel deps = 0) :
    ∀ d ∈ deps, d ∉ alive ∧ (rel = true ∨ d ≠ endId) := by
  intro d hd
  have hfalse : (decide (d ∈ alive) || (!rel && decide (d = endId))) = false := by
    by_contra hb
    have hb' : (decide (d ∈ alive) || (!rel && decide (d = endId))) = true := by
      revert hb
      cases (decide (d ∈ alive) || (!rel && decide (d = endId))) <;> simp
    have hpos : 0 < pendingCount alive rel deps := by
      rw [pendingCount, List.countP_pos]
      exact ⟨d, hd, hb'⟩
    omega
  constructor
  · intro hmem
    simp [hmem] at hfalse
  · cases hrel : rel with
    | true => exact Or.inl rfl
    | false =>
        right
        intro hde
        rw [hrel] at hfalse
        simp [hde] at hfalse

/-- Splitting a `countP` at a single distinguished element: if `Q` agrees with
`P` away from `x`, holds `false` at `x` while `P` holds `true` there, then
counting `Q` misses exactly the occurrences of `x`. -/
theorem countP_split (l : List SysId) (P Q : SysId → Bool) (x : SysId)
    (hPx : P x = true) (hQx : Q x = false) (hQ : ∀ d, d ≠ x → Q d = P d) :
    l.countP Q + l.count x = l.countP P := by
  induction l with
  | nil => simp
  | cons d rest ih =>
      rw [List.countP_cons, List.countP_cons, List.count_cons]
      by_cases hd : d = x
      · subst hd
        rw [hPx, hQx]
        simp only [beq_self_eq_true, if_true]
        simp only [Bool.false_eq_true, if_false]
        omega
      · rw [hQ d hd]
        have hdx : (d == x) = false := by simp [hd]
        rw [hdx]
        simp only [Bool.false_eq_true, if_false]
        rcases Bool.eq_false_or_eq_true (P d) with hp | hp <;>
          simp only [hp, Bool.false_eq_true, if_false, if_true] <;> omega

theorem pendingCount_erase (alive deps : List SysId) (rel : Bool) (x : SysId)
    (hnd : alive.Nodup) (hx : x ∈ alive) (hxe : x ≠ endId) :
    pendingCount (alive.erase x) rel deps + deps.count x = pendingCount alive rel deps := by
  rw [pendingCount, pendingCount]
  apply countP_split
  · simp [hx]
  · have hxx : x ∉ alive.erase x := fun hm => ((hnd.mem_erase_iff).mp hm).1 rfl
    simp [hxx, hxe]
  · intro d hd
    simp [List.mem_erase_of_ne hd]

theorem pendingCount_release (alive deps : List SysId) (hend : endId ∉ alive) :
    pendingCount alive true deps + deps.count endId = pendingCount alive false deps := by
  rw [pendingCount, pendingCount]
  apply countP_split
  · simp
  · simp [hend]
  · intro d hd
    simp [hd]

/-! ## `consumersOf` characterization -/

theorem consumersOf_count {g : List (SysId × List SysId)} (hnd : (keysOf g).Nodup)
    (x c : SysId) :
    (consumersOf g x).count c =
      match alGet g c with
      | some deps => deps.count x
      | none => 0 := by
  induction g with
  | nil => simp [consumersOf, alGet]
  | cons p rest ih =>
      obtain ⟨k, deps⟩ := p
      have hnd' : (keysOf rest).Nodup := by
        simp only [keysOf, List.map_cons, List.nodup_cons] at hnd
        exact hnd.2
      rw [show consumersOf ((k, deps) :: rest) x
          = List.replicate (deps.count x) k ++ consumersOf rest x from rfl]
      rw [List.count_append, List.count_replicate, ih hnd']
      by_cases hk : k = c
      · subst hk
        have hget : alGet rest k = none := by
          apply alGet_eq_none.mpr
          simp only [keysOf, List.map_cons, List.nodup_cons] at hnd
          exact hnd.1
        rw [show alGet ((k, deps) :: rest) k = some deps by simp [alGet], hget]
        simp
      · have hne : (k == c) = false := by simp [hk]
        rw [hne, show alGet ((k, deps) :: rest) c = alGet rest c by simp [alGet, hk]]
        simp

theorem consumersOf_mem {g : List (SysId × List SysId)} {x c : SysId}
    (h : c ∈ consumersOf g x) : ∃ deps, (c, deps) ∈ g ∧ x ∈ deps := by
  rw [consumersOf, List.mem_flatMap] at h
  obtain ⟨p, hp, hrep⟩ := h
  have := List.eq_of_mem_replicate hrep
  subst this
  refine ⟨p.2, by simpa using hp, ?_⟩
  by_contra hx
  have hc : List.count x p.2 = 0 := List.count_eq_zero.mpr hx
  rw [hc] at hrep
  simp at hrep

theorem consumersOf_append (g1 g2 : List (SysId × List SysId)) (x : SysId) :
    consumersOf (g1 ++ g2) x = consumersOf g1 x ++ consumersOf g2 x := by
  simp [consumersOf]

/-! ## Characterizing the initialization loop of `Stage::update` -/

theorem foldl_alInsert_eq {β : Type} (g : List (SysId × List SysId))
    (f : SysId → List SysId → β) :
    ∀ acc : List (SysId × β), (∀ p ∈ g, p.1 ∉ keysOf acc) → (keysOf g).Nodup →
    g.foldl (fun m p => alInsert m p.1 (f p.1 p.2)) acc
      = acc ++ g.map (fun p => (p.1, f p.1 p.2)) := by
  induction g with
  | nil => intro acc _ _; simp
  | cons p rest ih =>
      intro acc hd hn
      obtain ⟨k, v⟩ := p
      rw [List.foldl_cons]
      have hk : k ∉ keysOf acc := hd (k, v) (List.mem_cons_self _ _)
      rw [alInsert_not_mem _ hk]
      have hn' : (keysOf rest).Nodup := by
        simp only [keysOf, List.map_cons, List.nodup_cons] at hn
        exact hn.2
      have hknotin : k ∉ keysOf rest := by
        simp only [keysOf, List.map_cons, List.nodup_cons] at hn
        exact hn.1
      have hd' : ∀ q ∈ rest, q.1 ∉ keysOf (acc ++ [(k, f k v)]) := by
        intro q hq
        have h1 : q.1 ∉ keysOf acc := hd q (List.mem_cons_of_mem _ hq)
        have h2 : q.1 ≠ k := by
          rintro rfl
          exact hknotin (List.mem_map.mpr ⟨q, hq, rfl⟩)
        simp [keysOf, List.map_append]
        constructor
        · simpa [keysOf] using h1
        · exact h2
      rw [ih (acc ++ [(k, f k v)]) hd' hn']
      simp

theorem initCounts_eq (g : List (SysId × List SysId)) (hn : (keysOf g).Nodup) :
    initCounts g = g.map (fun p => (p.1, p.2.length)) := by
  rw [initCounts, foldl_alInsert_eq g (fun _ deps => deps.length) [] (by simp [keysOf]) hn]
  simp

theorem initInv_eq (g : List (SysId × List SysId)) (hn : (keysOf g).Nodup)
    (hend : endId ∉ keysOf g) :
    initInv g = g.map (fun p => (p.1, ([] : List SysId))) ++ [(endId, [])] := by
  rw [initInv, foldl_alInsert_eq g (fun _ _ => ([] : List SysId)) [] (by simp [keysOf]) hn]
  rw [List.nil_append]
  apply alInsert_not_mem
  intro hx
  apply hend
  rw [keysOf, List.map_map] at hx
  simpa [keysOf] using hx

theorem keysOf_initInv (g : List (SysId × List SysId)) (hn : (keysOf g).Nodup)
    (hend : endId ∉ keysOf g) :
    keysOf (initInv g) = keysOf g ++ [endId] := by
  rw [initInv_eq g hn hend, keysOf, List.map_append, List.map_map]
  rfl

theorem alGet_initCounts (g : List (SysId × List SysId)) (hn : (keysOf g).Nodup)
    (k : SysId) : alGet (initCounts g) k = (alGet g k).map List.length := by
  rw [initCounts_eq g hn]
  exact alGet_mapVals (fun _ deps => deps.length) g k

theorem alGet_initInv (g : List (SysId × List SysId)) (hn : (keysOf g).Nodup)
    (hend : endId ∉ keysOf g) (k : SysId) :
    alGet (initInv g) k = if k ∈ keysOf g ∨ k = endId then some [] else none := by
  rw [initInv_eq g hn hend, alGet_append]
  rw [alGet_mapVals (fun _ _ => ([] : List SysId)) g k]
  by_cases hk : k ∈ keysOf g
  · obtain ⟨v, hv⟩ := Option.isSome_iff_exists.mp (alGet_isSome.mpr hk)
    rw [hv]
    simp [hk]
  · rw [alGet_eq_none.mpr hk]
    by_cases hke : k = endId
    · subst hke
      simp [alGet]
    · simp [alGet, hk, hke, Ne.symm hke]

/-! ## Characterizing the build-inverse-map phase -/

theorem alModify_keys {α : Type} {m m' : List (SysId × α)} {k : SysId} {f : α → α}
    (h : alModify m k f = some m') : keysOf m' = keysOf m := by
  have hk : k ∈ keysOf m := by
    by_contra hn
    rw [alModify_eq_none.mpr hn] at h
    exact absurd h (by simp)
  obtain ⟨v, hv⟩ := Option.isSome_iff_exists.mp (alGet_isSome.mpr hk)
  rw [alModify_some f hv] at h
  injection h with h
  subst h
  exact keysOf_alInsert_mem _ hk

theorem addConsumersOf_keys {deps : List SysId} {inv inv' : List (SysId × List SysId)}
    {sid : SysId} (h : addConsumersOf inv sid deps = some inv') :
    keysOf inv' = keysOf inv := by
  induction deps generalizing inv with
  | nil =>
      rw [show addConsumersOf inv sid [] = some inv from rfl] at h
      injection h with h
      subst h
      rfl
  | cons d rest ih =>
      rw [show addConsumersOf inv sid (d :: rest)
          = match alModify inv d (fun l => l ++ [sid]) with
            | none => none
            | some inv2 => addConsumersOf inv2 sid rest from rfl] at h
      cases hm : alModify inv d (fun l => l ++ [sid]) with
      | none => rw [hm] at h; exact absurd h (by simp)
      | some inv2 =>
          rw [hm] at h
          rw [ih h, alModify_keys hm]

theorem addConsumersOf_spec (deps : List SysId) (inv : List (SysId × List SysId))
    (sid : SysId) (hmem : ∀ d ∈ deps, d ∈ keysOf inv) :
    ∃ inv', addConsumersOf inv sid deps = some inv' ∧
      ∀ x, alGet inv' x
        = (alGet inv x).map (fun cs => cs ++ List.replicate (deps.count x) sid) := by
  induction deps generalizing inv with
  | nil =>
      refine ⟨inv, rfl, ?_⟩
      intro x
      cases alGet inv x <;> simp
  | cons d rest ih =>
      have hd : d ∈ keysOf inv := hmem d (List.mem_cons_self _ _)
      obtain ⟨cs, hcs⟩ := Option.isSome_iff_exists.mp (alGet_isSome.mpr hd)
      have hmod : alModify inv d (fun l => l ++ [sid])
          = some (alInsert inv d (cs ++ [sid])) := alModify_some _ hcs
      set inv2 := alInsert inv d (cs ++ [sid]) with hinv2
      have hkeys2 : keysOf inv2 = keysOf inv := keysOf_alInsert_mem _ hd
      have hmem2 : ∀ e ∈ rest, e ∈ keysOf inv2 := by
        intro e he
        rw [hkeys2]
        exact hmem e (List.mem_cons_of_mem _ he)
      obtain ⟨inv', hrun, hget⟩ := ih inv2 hmem2
      refine ⟨inv', ?_, ?_⟩
      · rw [show addConsumersOf inv sid (d :: rest)
            = match alModify inv d (fun l => l ++ [sid]) with
              | none => none
              | some inv2 => addConsumersOf inv2 sid rest from rfl, hmod]
        exact hrun
      · intro x
        rw [hget x]
        by_cases hx : x = d
        · subst hx
          rw [show alGet inv2 x = some (cs ++ [sid]) from alGet_alInsert_self _ _ _, hcs]
          have hcc : (x :: rest).count x = rest.count x + 1 := by simp [List.count_cons]
          rw [hcc]
          simp [List.replicate_succ]
        · rw [show alGet inv2 x = alGet inv x from alGet_alInsert_ne _ _ _ _ hx]
          have hcc : (d :: rest).count x = rest.count x := by
            simp [List.count_cons, Ne.symm hx]
          rw [hcc]

theorem buildInv_go (g : List (SysId × List SysId)) :
    ∀ (rest done : List (SysId × List SysId)) (inv : List (SysId × List SysId)),
    (∀ p ∈ rest, ∀ d ∈ p.2, d ∈ keysOf inv) →
    (∀ x, alGet inv x = (alGet (initInv g) x).map (fun _ => consumersOf done x)) →
    ∃ inv', buildInv inv rest = some inv' ∧
      ∀ x, alGet inv' x = (alGet (initInv g) x).map (fun _ => consumersOf (done ++ rest) x) := by
  intro rest
  induction rest with
  | nil =>
      intro done inv _ hinv
      exact ⟨inv, rfl, by simpa using hinv⟩
  | cons p rest' ih =>
      intro done inv hrest hinv
      obtain ⟨sid, deps⟩ := p
      have hmem : ∀ d ∈ deps, d ∈ keysOf inv :=
        hrest (sid, deps) (List.mem_cons_self _ _)
      obtain ⟨inv2, hrun2, hget2⟩ := addConsumersOf_spec deps inv sid hmem
      have hkeys2 : keysOf inv2 = keysOf inv := addConsumersOf_keys hrun2
      have hinv2 : ∀ x, alGet inv2 x
          = (alGet (initInv g) x).map (fun _ => consumersOf (done ++ [(sid, deps)]) x) := by
        intro x
        rw [hget2 x, hinv x]
        cases alGet (initInv g) x <;>
          simp [consumersOf_append, consumersOf]
      have hrest2 : ∀ p ∈ rest', ∀ d ∈ p.2, d ∈ keysOf inv2 := by
        intro q hq d hd
        rw [hkeys2]
        exact hrest q (List.mem_cons_of_mem _ hq) d hd
      obtain ⟨inv', hrun', hget'⟩ := ih (done ++ [(sid, deps)]) inv2 hrest2 hinv2
      refine ⟨inv', ?_, ?_⟩
      · rw [show buildInv inv ((sid, deps) :: rest')
            = match addConsumersOf inv sid deps with
              | none => none
              | some inv2 => buildInv inv2 rest' from rfl, hrun2]
        exact hrun'
      · intro x
        rw [hget' x]
        simp

theorem buildInv_full (g : List (SysId × List SysId)) (hg : GraphOK g) :
    ∃ inv, buildInv (initInv g) g = some inv ∧
      (∀ x, x ∈ keysOf g ∨ x = endId → alGet inv x = some (consumersOf g x)) ∧
      (∀ x, x ∉ keysOf g → x ≠ endId → alGet inv x = none) := by
  have hrest : ∀ p ∈ g, ∀ d ∈ p.2, d ∈ keysOf (initInv g) := by
    intro p hp d hd
    rw [keysOf_initInv g hg.nodup hg.endNotMem]
    rcases hg.depsOK p hp d hd with h | h
    · exact List.mem_append_left _ h
    · subst h
      exact List.mem_append_right _ (by simp)
  have hinv0 : ∀ x, alGet (initInv g) x
      = (alGet (initInv g) x).map (fun _ => consumersOf [] x) := by
    intro x
    rw [alGet_initInv g hg.nodup hg.endNotMem]
    by_cases hx : x ∈ keysOf g ∨ x = endId <;> simp [hx, consumersOf]
  obtain ⟨inv, hrun, hget⟩ := buildInv_go g g [] (initInv g) hrest hinv0
  refine ⟨inv, hrun, ?_, ?_⟩
  · intro x hx
    rw [hget x, alGet_initInv g hg.nodup hg.endNotMem]
    simp [hx]
  · intro x hx1 hx2
    rw [hget x, alGet_initInv g hg.nodup hg.endNotMem]
    have : ¬(x ∈ keysOf g ∨ x = endId) := by
      rintro (h | h)
      · exact hx1 h
      · exact hx2 h
    simp [this]

theorem addConsumersOf_none {deps : List SysId} {inv : List (SysId × List SysId)}
    {sid d : SysId} (hd : d ∈ deps) (habs : d ∉ keysOf inv) :
    addConsumersOf inv sid deps = none := by
  induction deps generalizing inv with
  | nil => simp at hd
  | cons e rest ih =>
      rw [show addConsumersOf inv sid (e :: rest)
          = match alModify inv e (fun l => l ++ [sid]) with
            | none => none
            | some inv2 => addConsumersOf inv2 sid rest from rfl]
      by_cases he : e ∈ keysOf inv
      · obtain ⟨cs, hcs⟩ := Option.isSome_iff_exists.mp (alGet_isSome.mpr he)
        rw [alModify_some _ hcs]
        have hde : d ≠ e := by
          rintro rfl
          exact habs he
        have hdrest : d ∈ rest := by
          rcases List.mem_cons.mp hd with h | h
          · exact absurd h hde
          · exact h
        exact ih hdrest (by rw [keysOf_alInsert_mem _ he]; exact habs)
      · rw [alModify_eq_none.mpr he]

theorem buildInv_none {rest : List (SysId × List SysId)}
    {inv : List (SysId × List SysId)} {p : SysId × List SysId} {d : SysId}
    (hp : p ∈ rest) (hd : d ∈ p.2) (habs : d ∉ keysOf inv) :
    buildInv inv rest = none := by
  induction rest generalizing inv with
  | nil => simp at hp
  | cons q rest' ih =>
      obtain ⟨sid, deps⟩ := q
      rw [show buildInv inv ((sid, deps) :: rest')
          = match addConsumersOf inv sid deps with
            | none => none
            | some inv2 => buildInv inv2 rest' from rfl]
      rcases List.mem_cons.mp hp with hq | hq
      · rw [hq] at hd
        rw [addConsumersOf_none hd habs]
      · cases hrun : addConsumersOf inv sid deps with
        | none => rfl
        | some inv2 =>
            exact ih hq (by rw [addConsumersOf_keys hrun]; exact habs)

/-! ## The `sort` loop: unfolding equations and the invariant proof -/

theorem kahnSort_none (inv : List (SysId × List SysId)) (ecnt : List (SysId × Nat))
    (rq : List SysId) (hfz : find_zero ecnt = none) :
    kahnSort inv ecnt rq = some (ecnt, rq) := by
  rw [kahnSort]
  split
  · rfl
  · rename_i id h
    rw [h] at hfz
    cases hfz

theorem kahnSort_step (inv : List (SysId × List SysId)) (ecnt : List (SysId × Nat))
    (rq : List SysId) (x : SysId) (cs : List SysId) (ecnt2 : List (SysId × Nat))
    (hfz : find_zero ecnt = some x) (hc : alGet inv x = some cs)
    (hd : decrList cs (alErase ecnt x) = some ecnt2) :
    kahnSort inv ecnt rq = kahnSort inv ecnt2 (rq ++ [x]) := by
  rw [kahnSort]
  split
  · rename_i h
    rw [h] at hfz
    cases hfz
  · rename_i id h
    rw [h] at hfz
    injection hfz with hfz
    subst hfz
    rw [hc]
    split
    · rename_i h2
      exact absurd h2.symm (by simp)
    · rename_i e2 h2
      injection h2 with h2
      subst h2
      split
      · rename_i h3
        rw [h3] at hd
        cases hd
      · rename_i e3 h3
        rw [h3] at hd
        injection hd with hd
        subst hd
        rfl

theorem DepEnd_mem {g : List (SysId × List SysId)} {k : SysId} (h : DepEnd g k) :
    k ∈ keysOf g := by
  cases h with
  | direct c hc _ => exact hc
  | step c d hc _ _ => exact hc

theorem mem_keysOf {α : Type} {m : List (SysId × α)} {p : SysId × α} (h : p ∈ m) :
    p.1 ∈ keysOf m :=
  List.mem_map.mpr ⟨p, h, rfl⟩

theorem mem_of_key {g : List (SysId × List SysId)} {c : SysId} (h : c ∈ keysOf g) :
    (c, depsOf g c) ∈ g := by
  obtain ⟨deps, hdeps⟩ := Option.isSome_iff_exists.mp (alGet_isSome.mpr h)
  rw [depsOf, hdeps]
  exact alGet_mem hdeps

theorem count_le_pendingCount (deps alive : List SysId) (rel : Bool) (x : SysId)
    (hx : x ∈ alive ∨ (rel = false ∧ x = endId)) :
    deps.count x ≤ pendingCount alive rel deps := by
  rw [List.count_eq_countP, pendingCount]
  apply List.countP_mono_left
  intro d _ hd
  have hdx : d = x := by simpa using hd
  subst hdx
  rcases hx with h | ⟨h1, h2⟩
  · simp [h]
  · subst h1
    simp [h2]

/-- One full run of the `sort` closure preserves the loop invariant, succeeds,
stops with an empty frontier, and only appends still-alive systems. -/
theorem kahnSort_spec (g : List (SysId × List SysId)) (hg : GraphOK g) (rel : Bool)
    (inv : List (SysId × List SysId))
    (hinv : ∀ x, x ∈ keysOf g ∨ x = endId → alGet inv x = some (consumersOf g x)) :
    ∀ (n : Nat) (ecnt : List (SysId × Nat)) (rq : List SysId), ecnt.length ≤ n →
    KInv g rel ecnt rq →
    ∃ ecnt' rq' ext, kahnSort inv ecnt rq = some (ecnt', rq') ∧ KInv g rel ecnt' rq' ∧
      find_zero ecnt' = none ∧ rq' = rq ++ ext ∧
      (∀ e ∈ ext, e ∈ keysOf ecnt) ∧ (∀ k ∈ keysOf ecnt', k ∈ keysOf ecnt) := by
  intro n
  induction n with
  | zero =>
      intro ecnt rq hlen hk
      have hnil : ecnt = [] := List.length_eq_zero.mp (Nat.le_zero.mp hlen)
      subst hnil
      exact ⟨[], rq, [], kahnSort_none _ _ _ rfl, hk, rfl, by simp, by simp, by simp⟩
  | succ n ih =>
      intro ecnt rq hlen hk
      cases hfz : find_zero ecnt with
      | none =>
          exact ⟨ecnt, rq, [], kahnSort_none _ _ _ hfz, hk, hfz, by simp, by simp,
            fun k hkm => hkm⟩
      | some x =>
          obtain ⟨hxe, hx0mem⟩ := find_zero_some hfz
          have aliveNodup : (keysOf ecnt).Nodup := hk.nodupAll.of_append_right
          have hxA : x ∈ keysOf ecnt := mem_keysOf hx0mem
          have hxg : x ∈ keysOf g := hk.sub x hxA
          have hxrq : x ∉ rq := fun hmem =>
            (List.disjoint_of_nodup_append hk.nodupAll) hmem hxA
          have hpend : pendingCount (keysOf ecnt) rel (depsOf g x) = 0 :=
            (hk.counts (x, 0) hx0mem).symm
          have hconsget : alGet inv x = some (consumersOf g x) := hinv x (Or.inl hxg)
          set ecnt1 := alErase ecnt x with hecnt1
          have hkeys1 : keysOf ecnt1 = (keysOf ecnt).erase x := keysOf_alErase _ _
          have hconsAlive : ∀ c ∈ consumersOf g x, c ∈ keysOf ecnt1 := by
            intro c hc
            obtain ⟨deps, hcg, hxdeps⟩ := consumersOf_mem hc
            have hcKey : c ∈ keysOf g := mem_keysOf hcg
            have hdepsOf : depsOf g c = deps := by
              rw [depsOf, mem_alGet hg.nodup hcg]
              rfl
            have hcrq : c ∉ rq := by
              intro hcmem
              obtain ⟨l1, l2, hsplit⟩ := List.append_of_mem hcmem
              have hxin := hk.ordered l1 c l2 hsplit x (by rw [hdepsOf]; exact hxdeps) hxe
              have hxrq2 : x ∈ rq := by
                rw [hsplit]
                exact List.mem_append_left _ hxin
              exact hxrq hxrq2
            have hcA : c ∈ keysOf ecnt := by
              rcases hk.partAll c hcKey with h | h
              · exact absurd h hcrq
              · exact h
            have hcx : c ≠ x := by
              rintro rfl
              have h1 : c ∈ depsOf g c := by rw [hdepsOf]; exact hxdeps
              exact (pendingCount_zero hpend c h1).1 hcA
            rw [hkeys1]
            exact (aliveNodup.mem_erase_iff).mpr ⟨hcx, hcA⟩
          have hconsCount : ∀ c, (consumersOf g x).count c ≤ (alGet ecnt1 c).getD 0 := by
            intro c
            by_cases hzero : (consumersOf g x).count c = 0
            · rw [hzero]
              exact Nat.zero_le _
            · have hcmem : c ∈ consumersOf g x := by
                rw [← List.count_pos_iff]
                omega
              have hc1 : c ∈ keysOf ecnt1 := hconsAlive c hcmem
              have hcx : c ≠ x := by
                rw [hkeys1] at hc1
                exact ((aliveNodup.mem_erase_iff).mp hc1).1
              have hcA : c ∈ keysOf ecnt := by
                rw [hkeys1] at hc1
                exact List.mem_of_mem_erase hc1
              obtain ⟨v, hv⟩ := Option.isSome_iff_exists.mp (alGet_isSome.mpr hcA)
              have hv1 : alGet ecnt1 c = some v := by
                rw [hecnt1, alGet_alErase_ne _ _ _ (Ne.symm hcx)]
                exact hv
              have hvc : v = pendingCount (keysOf ecnt) rel (depsOf g c) :=
                hk.counts (c, v) (alGet_mem hv)
              have hcount : (consumersOf g x).count c = (depsOf g c).count x := by
                rw [consumersOf_count hg.nodup x c]
                obtain ⟨deps, hdeps⟩ := Option.isSome_iff_exists.mp
                  (alGet_isSome.mpr (hk.sub c hcA))
                rw [hdeps, depsOf, hdeps]
                rfl
              rw [hv1, hcount, hvc]
              exact count_le_pendingCount _ _ _ _ (Or.inl hxA)
          obtain ⟨ecnt2, hdecr, hkeys2, hget2⟩ :=
            decrList_spec (consumersOf g x) ecnt1 hconsAlive hconsCount
          have hstep := kahnSort_step inv ecnt rq x (consumersOf g x) ecnt2
            hfz hconsget hdecr
          have hkeys21 : keysOf ecnt2 = (keysOf ecnt).erase x := by
            rw [hkeys2, hkeys1]
          have hnd2 : (keysOf ecnt2).Nodup := by
            rw [hkeys21]
            exact aliveNodup.erase x
          have hk2 : KInv g rel ecnt2 (rq ++ [x]) := by
            refine ⟨?_, ?_, ?_, ?_, ?_, ?_, ?_⟩
            · intro k hkmem
              rw [hkeys21] at hkmem
              exact hk.sub k (List.mem_of_mem_erase hkmem)
            · intro c hc
              rcases List.mem_append.mp hc with h | h
              · exact hk.rqSub c h
              · rw [List.mem_singleton] at h
                subst h
                exact hxg
            · rw [hkeys21, List.append_assoc]
              have hperm : (keysOf ecnt).Perm (x :: (keysOf ecnt).erase x) :=
                List.perm_cons_erase hxA
              exact (List.Perm.append_left rq hperm).nodup hk.nodupAll
            · intro k hkg
              rcases hk.partAll k hkg with h | h
              · exact Or.inl (List.mem_append_left _ h)
              · by_cases hxeq : k = x
                · subst hxeq
                  exact Or.inl (List.mem_append_right _ (by simp))
                · right
                  rw [hkeys21]
                  exact (aliveNodup.mem_erase_iff).mpr ⟨hxeq, h⟩
            · intro p hp
              have hpget : alGet ecnt2 p.1 = some p.2 := mem_alGet hnd2 hp
              have hp1mem : p.1 ∈ keysOf ecnt2 := mem_keysOf hp
              have hpx : p.1 ≠ x := by
                rw [hkeys21] at hp1mem
                exact ((aliveNodup.mem_erase_iff).mp hp1mem).1
              have hpA : p.1 ∈ keysOf ecnt := by
                rw [hkeys21] at hp1mem
                exact List.mem_of_mem_erase hp1mem
              obtain ⟨v, hv⟩ := Option.isSome_iff_exists.mp (alGet_isSome.mpr hpA)
              have hv1 : alGet ecnt1 p.1 = some v := by
                rw [hecnt1, alGet_alErase_ne _ _ _ (Ne.symm hpx)]
                exact hv
              have hveq : v = pendingCount (keysOf ecnt) rel (depsOf g p.1) :=
                hk.counts (p.1, v) (alGet_mem hv)
              have hcnt : (consumersOf g x).count p.1 = (depsOf g p.1).count x := by
                rw [consumersOf_count hg.nodup x p.1]
                obtain ⟨deps, hdeps⟩ := Option.isSome_iff_exists.mp
                  (alGet_isSome.mpr (hk.sub p.1 hpA))
                rw [hdeps, depsOf, hdeps]
                rfl
              have hget2p := hget2 p.1 v hv1
              rw [hpget] at hget2p
              injection hget2p with hget2p
              rw [hcnt] at hget2p
              have herase := pendingCount_erase (keysOf ecnt) (depsOf g p.1) rel x
                aliveNodup hxA hxe
              rw [← hveq] at herase
              rw [hkeys21]
              omega
            · intro l1 c l2 hsplit d hd hdne
              have hcx : ∀ hl1 : l1 = rq, c = x → d ∈ l1 := by
                intro hl1 hcx
                subst hl1
                subst hcx
                have hz := pendingCount_zero hpend d hd
                have hdg : d ∈ keysOf g := by
                  rcases hg.depsOK (c, depsOf g c) (mem_of_key hxg) d hd with h | h
                  · exact h
                  · exact absurd h hdne
                rcases hk.partAll d hdg with h | h
                · exact h
                · exact absurd h hz.1
              rcases List.append_eq_append_iff.mp hsplit.symm with ⟨a', ha1, ha2⟩ |
                ⟨c', hc1, hc2⟩
              · cases a' with
                | nil =>
                    rw [List.append_nil] at ha1
                    rw [List.nil_append] at ha2
                    have hcc : c = x := by
                      injection ha2
                    exact hcx ha1.symm hcc
                | cons e t =>
                    rw [List.cons_append] at ha2
                    have hce1 : c = e := by
                      injection ha2
                    subst hce1
                    exact hk.ordered l1 c t ha1 d hd hdne
              · cases c' with
                | nil =>
                    rw [List.append_nil] at hc1
                    rw [List.nil_append] at hc2
                    have hcc : x = c := by
                      injection hc2
                    exact hcx hc1 hcc.symm

                | cons e t =>
                    exfalso
                    have hlen := congrArg List.length hc2
                    simp at hlen
            · intro hrel k hdep
              have hnotx : ¬DepEnd g x := by
                intro hdx
                cases hdx with
                | direct c hc hmem =>
                    rcases (pendingCount_zero hpend endId hmem).2 with h | h
                    · rw [hrel] at h
                      cases h
                    · exact h rfl
                | step c d hc hd hde =>
                    have hdA := hk.endAlive hrel d hde
                    exact (pendingCount_zero hpend d hd).1 hdA
              have hkA := hk.endAlive hrel k hdep
              have hkx : k ≠ x := by
                rintro rfl
                exact hnotx hdep
              rw [hkeys21]
              exact (aliveNodup.mem_erase_iff).mpr ⟨hkx, hkA⟩
          have hlen2 : ecnt2.length ≤ n := by
            have h1 : ecnt2.length = ecnt1.length := decrList_length hdecr
            have h2 : ecnt1.length < ecnt.length := by
              rw [hecnt1]
              exact alErase_length_lt hxA
            omega
          obtain ⟨ecnt', rq', ext, hrun, hk', hfz', hrq', hext, hsubk⟩ :=
            ih ecnt2 (rq ++ [x]) hlen2 hk2
          refine ⟨ecnt', rq', x :: ext, ?_, hk', hfz', ?_, ?_, ?_⟩
          · rw [hstep]
            exact hrun
          · rw [hrq', List.append_assoc]
            rfl
          · intro e he
            rcases List.mem_cons.mp he with h | h
            · subst h
              exact hxA
            · have hmem := hext e h
              rw [hkeys21] at hmem
              exact List.mem_of_mem_erase hmem
          · intro k hkm
            have h1 := hsubk k hkm
            rw [hkeys21] at h1
            exact List.mem_of_mem_erase h1

/-! ## Phase boundaries of `Stage::update` -/

theorem keysOf_initCounts (g : List (SysId × List SysId)) (hn : (keysOf g).Nodup) :
    keysOf (initCounts g) = keysOf g := by
  rw [initCounts_eq g hn, keysOf, keysOf, List.map_map]
  rfl

/-- The invariant holds at the start of the first `sort` run. -/
theorem KInv_init (g : List (SysId × List SysId)) (hg : GraphOK g) :
    KInv g false (initCounts g) [] := by
  have hkeys : keysOf (initCounts g) = keysOf g := keysOf_initCounts g hg.nodup
  refine ⟨?_, ?_, ?_, ?_, ?_, ?_, ?_⟩
  · intro k h
    rw [hkeys] at h
    exact h
  · intro c hc
    simp at hc
  · rw [List.nil_append, hkeys]
    exact hg.nodup
  · intro k hkg
    right
    rw [hkeys]
    exact hkg
  · intro p hp
    rw [initCounts_eq g hg.nodup] at hp
    obtain ⟨q, hq, hpq⟩ := List.mem_map.mp hp
    have hdeps : depsOf g q.1 = q.2 := by
      rw [depsOf, mem_alGet hg.nodup (by simpa using hq)]
      rfl
    rw [← hpq]
    show q.2.length = pendingCount (keysOf (initCounts g)) false (depsOf g q.1)
    rw [hkeys, hdeps]
    refine (pendingCount_all _ _ _ ?_).symm
    intro d hd
    rcases hg.depsOK q hq d hd with h | h
    · exact Or.inl h
    · exact Or.inr ⟨rfl, h⟩
  · intro l1 c l2 h
    exact absurd h.symm (by simp)
  · intro _ k hdep
    rw [hkeys]
    exact DepEnd_mem hdep

theorem pendingCount_ne_zero {alive : List SysId} {rel : Bool} {deps : List SysId}
    (h : pendingCount alive rel deps ≠ 0) :
    ∃ d ∈ deps, d ∈ alive ∨ (rel = false ∧ d = endId) := by
  rw [pendingCount] at h
  obtain ⟨d, hd, hP⟩ := List.countP_pos.mp (Nat.pos_of_ne_zero h)
  refine ⟨d, hd, ?_⟩
  rcases Bool.or_eq_true_iff.mp hP with h1 | h1
  · exact Or.inl (of_decide_eq_true h1)
  · obtain ⟨h2, h3⟩ := Bool.and_eq_true_iff.mp h1
    refine Or.inr ⟨?_, of_decide_eq_true h3⟩
    cases rel with
    | false => rfl
    | true => simp at h2

/-- When the first `sort` run stops, everything still alive transitively
depends on the `End` barrier. -/
theorem stop_subset_DepEnd (g : List (SysId × List SysId)) (hg : GraphOK g)
    {ecnt : List (SysId × Nat)} {rq : List SysId} (hk : KInv g false ecnt rq)
    (hfz : find_zero ecnt = none) (r : SysId → Nat)
    (hr : ∀ p ∈ g, ∀ d ∈ p.2, r d < r p.1) :
    ∀ k ∈ keysOf ecnt, DepEnd g k := by
  have aliveNodup : (keysOf ecnt).Nodup := hk.nodupAll.of_append_right
  have main : ∀ n k, r k ≤ n → k ∈ keysOf ecnt → DepEnd g k := by
    intro n
    induction n with
    | zero =>
        intro k hrk hmem
        have hkg : k ∈ keysOf g := hk.sub k hmem
        obtain ⟨v, hv⟩ := Option.isSome_iff_exists.mp (alGet_isSome.mpr hmem)
        have hke : k ≠ endId := by
          rintro rfl
          exact hg.endNotMem hkg
        have hvne : v ≠ 0 := find_zero_none hfz (k, v) (alGet_mem hv) hke
        have hvp : v = pendingCount (keysOf ecnt) false (depsOf g k) :=
          hk.counts (k, v) (alGet_mem hv)
        rw [hvp] at hvne
        obtain ⟨d, hd, hdisj⟩ := pendingCount_ne_zero hvne
        rcases hdisj with hdA | ⟨_, hde⟩
        · exfalso
          have hlt : r d < r k := by
            simpa using hr (k, depsOf g k) (mem_of_key hkg) d hd
          omega
        · subst hde
          exact DepEnd.direct k hkg hd
    | succ n ih =>
        intro k hrk hmem
        have hkg : k ∈ keysOf g := hk.sub k hmem
        obtain ⟨v, hv⟩ := Option.isSome_iff_exists.mp (alGet_isSome.mpr hmem)
        have hke : k ≠ endId := by
          rintro rfl
          exact hg.endNotMem hkg
        have hvne : v ≠ 0 := find_zero_none hfz (k, v) (alGet_mem hv) hke
        have hvp : v = pendingCount (keysOf ecnt) false (depsOf g k) :=
          hk.counts (k, v) (alGet_mem hv)
        rw [hvp] at hvne
        obtain ⟨d, hd, hdisj⟩ := pendingCount_ne_zero hvne
        rcases hdisj with hdA | ⟨_, hde⟩
        · have hlt : r d < r k := by
            simpa using hr (k, depsOf g k) (mem_of_key hkg) d hd
          have hdep : DepEnd g d := ih d (by omega) hdA
          exact DepEnd.step k d hkg hd hdep
        · subst hde
          exact DepEnd.direct k hkg hd
  intro k hmem
  exact main (r k) k (le_refl _) hmem

/-- Releasing the barrier: decrementing the `End` consumers succeeds and
re-establishes the invariant with `rel := true`. -/
theorem phase2_KInv (g : List (SysId × List SysId)) (hg : GraphOK g)
    {ecnt : List (SysId × Nat)} {rq : List SysId} (hk : KInv g false ecnt rq) :
    ∃ ecnt2, decrList (consumersOf g endId) ecnt = some ecnt2 ∧
      KInv g true ecnt2 rq ∧ keysOf ecnt2 = keysOf ecnt := by
  have aliveNodup : (keysOf ecnt).Nodup := hk.nodupAll.of_append_right
  have hendA : endId ∉ keysOf ecnt := by
    intro hmem
    exact hg.endNotMem (hk.sub endId hmem)
  have hmem : ∀ c ∈ consumersOf g endId, c ∈ keysOf ecnt := by
    intro c hc
    obtain ⟨deps, hcg, hedeps⟩ := consumersOf_mem hc
    have hdeps : depsOf g c = deps := by
      rw [depsOf, mem_alGet hg.nodup hcg]
      rfl
    exact hk.endAlive rfl c
      (DepEnd.direct c (mem_keysOf hcg) (by rw [hdeps]; exact hedeps))
  have hge : ∀ c, (consumersOf g endId).count c ≤ (alGet ecnt c).getD 0 := by
    intro c
    by_cases hzero : (consumersOf g endId).count c = 0
    · rw [hzero]
      exact Nat.zero_le _
    · have hcmem : c ∈ consumersOf g endId := by
        rw [← List.count_pos_iff]
        omega
      have hcA : c ∈ keysOf ecnt := hmem c hcmem
      obtain ⟨v, hv⟩ := Option.isSome_iff_exists.mp (alGet_isSome.mpr hcA)
      have hvc : v = pendingCount (keysOf ecnt) false (depsOf g c) :=
        hk.counts (c, v) (alGet_mem hv)
      have hcount : (consumersOf g endId).count c = (depsOf g c).count endId := by
        rw [consumersOf_count hg.nodup endId c]
        obtain ⟨deps, hdeps⟩ := Option.isSome_iff_exists.mp
          (alGet_isSome.mpr (hk.sub c hcA))
        rw [hdeps, depsOf, hdeps]
        rfl
      rw [hv, hcount, hvc]
      exact count_le_pendingCount _ _ _ _ (Or.inr ⟨rfl, rfl⟩)
  obtain ⟨ecnt2, hdecr, hkeys2, hget2⟩ :=
    decrList_spec (consumersOf g endId) ecnt hmem hge
  have hnd2 : (keysOf ecnt2).Nodup := by
    rw [hkeys2]
    exact aliveNodup
  refine ⟨ecnt2, hdecr, ⟨?_, hk.rqSub, ?_, ?_, ?_, hk.ordered, ?_⟩, hkeys2⟩
  · intro k hkm
    rw [hkeys2] at hkm
    exact hk.sub k hkm
  · rw [hkeys2]
    exact hk.nodupAll
  · intro k hkg
    rcases hk.partAll k hkg with h | h
    · exact Or.inl h
    · right
      rw [hkeys2]
      exact h
  · intro p hp
    have hpget : alGet ecnt2 p.1 = some p.2 := mem_alGet hnd2 hp
    have hpA : p.1 ∈ keysOf ecnt := by
      rw [← hkeys2]
      exact mem_keysOf hp
    obtain ⟨v, hv⟩ := Option.isSome_iff_exists.mp (alGet_isSome.mpr hpA)
    have hveq : v = pendingCount (keysOf ecnt) false (depsOf g p.1) :=
      hk.counts (p.1, v) (alGet_mem hv)
    have hcnt : (consumersOf g endId).count p.1 = (depsOf g p.1).count endId := by
      rw [consumersOf_count hg.nodup endId p.1]
      obtain ⟨deps, hdeps⟩ := Option.isSome_iff_exists.mp
        (alGet_isSome.mpr (hk.sub p.1 hpA))
      rw [hdeps, depsOf, hdeps]
      rfl
    have hget2p := hget2 p.1 v hv
    rw [hpget] at hget2p
    injection hget2p with hget2p
    rw [hcnt] at hget2p
    have hrel := pendingCount_release (keysOf ecnt) (depsOf g p.1) hendA
    rw [← hveq] at hrel
    rw [hkeys2]
    omega
  · intro hrel
    cases hrel

theorem exists_min_rank (r : SysId → Nat) :
    ∀ l : List SysId, l ≠ [] → ∃ m ∈ l, ∀ k ∈ l, r m ≤ r k := by
  intro l
  induction l with
  | nil => intro h; exact absurd rfl h
  | cons a rest ih =>
      intro _
      cases rest with
      | nil =>
          refine ⟨a, by simp, ?_⟩
          intro k hk
          have hka : k = a := by simpa using hk
          subst hka
          exact le_refl _
      | cons b t =>
          obtain ⟨m, hm, hmin⟩ := ih (by simp)
          by_cases hc : r a ≤ r m
          · refine ⟨a, by simp, ?_⟩
            intro k hk
            rcases List.mem_cons.mp hk with h | h
            · subst h
              exact le_refl _
            · exact le_trans hc (hmin k h)
          · refine ⟨m, List.mem_cons_of_mem _ hm, ?_⟩
            intro k hk
            rcases List.mem_cons.mp hk with h | h
            · subst h
              omega
            · exact hmin k h

/-- When the second `sort` run stops on an acyclic graph, nothing is left. -/
theorem stop_empty (g : List (SysId × List SysId)) (hg : GraphOK g)
    {ecnt : List (SysId × Nat)} {rq : List SysId} (hk : KInv g true ecnt rq)
    (hfz : find_zero ecnt = none) (r : SysId → Nat)
    (hr : ∀ p ∈ g, ∀ d ∈ p.2, r d < r p.1) : ecnt = [] := by
  by_contra hne
  have halive : keysOf ecnt ≠ [] := by
    intro h
    apply hne
    cases ecnt with
    | nil => rfl
    | cons p rest => simp [keysOf] at h
  obtain ⟨m, hm, hmin⟩ := exists_min_rank r (keysOf ecnt) halive
  have hmg : m ∈ keysOf g := hk.sub m hm
  obtain ⟨v, hv⟩ := Option.isSome_iff_exists.mp (alGet_isSome.mpr hm)
  have hme : m ≠ endId := by
    rintro rfl
    exact hg.endNotMem hmg
  have hvne : v ≠ 0 := find_zero_none hfz (m, v) (alGet_mem hv) hme
  have hvp : v = pendingCount (keysOf ecnt) true (depsOf g m) :=
    hk.counts (m, v) (alGet_mem hv)
  rw [hvp] at hvne
  obtain ⟨d, hd, hdisj⟩ := pendingCount_ne_zero hvne
  rcases hdisj with hdA | ⟨hrel, _⟩
  · have hlt : r d < r m := by
      simpa using hr (m, depsOf g m) (mem_of_key hmg) d hd
    have hge := hmin d hdA
    omega
  · cases hrel

/-- Full specification of a dirty `Stage::update` on a well-formed acyclic
registry: the rebuild succeeds, changes nothing but the cached queue, and the
new queue is a duplicate-free topological order over all registered systems,
with the barrier-free systems (`rq1`) before the barrier-dependent ones
(`rq2`). -/
theorem update_spec (s : Stage) (hg : GraphOK (graphOf s.systems))
    (hacy : AcyclicGraph (graphOf s.systems)) (hupd : s.need_update = true) :
    ∃ rq1 rq2 : List SysId,
      s.update = some { s with run_queue := rq1 ++ rq2 } ∧
      (rq1 ++ rq2).Nodup ∧
      (∀ k, k ∈ keysOf (graphOf s.systems) ↔ k ∈ rq1 ++ rq2) ∧
      (∀ l1 c l2, rq1 ++ rq2 = l1 ++ c :: l2 →
        ∀ d ∈ depsOf (graphOf s.systems) c, d ≠ endId → d ∈ l1) ∧
      (∀ b ∈ rq1, ¬DepEnd (graphOf s.systems) b) ∧
      (∀ a ∈ rq2, DepEnd (graphOf s.systems) a) := by
  obtain ⟨r, hr⟩ := hacy
  obtain ⟨inv, hbuild, hinvSome, hinvNone⟩ := buildInv_full (graphOf s.systems) hg
  have hk0 := KInv_init (graphOf s.systems) hg
  obtain ⟨ecnt1, rqA, ext1, hsort1, hk1, hfz1, hrqA, hext1, hsub1⟩ :=
    kahnSort_spec (graphOf s.systems) hg false inv hinvSome
      (initCounts (graphOf s.systems)).length (initCounts (graphOf s.systems)) []
      (le_refl _) hk0
  rw [List.nil_append] at hrqA
  have hDE1 : ∀ k ∈ keysOf ecnt1, DepEnd (graphOf s.systems) k :=
    stop_subset_DepEnd (graphOf s.systems) hg hk1 hfz1 r hr
  obtain ⟨ecnt2, hdecr, hk2, hkeys2⟩ := phase2_KInv (graphOf s.systems) hg hk1
  obtain ⟨ecnt3, rqF, ext2, hsort2, hk3, hfz3, hrqF, hext2, hsub3⟩ :=
    kahnSort_spec (graphOf s.systems) hg true inv hinvSome
      ecnt2.length ecnt2 rqA (le_refl _) hk2
  have hempty : ecnt3 = [] := stop_empty (graphOf s.systems) hg hk3 hfz3 r hr
  refine ⟨rqA, ext2, ?_, ?_, ?_, ?_, ?_, ?_⟩
  · rw [Stage.update, hupd]
    simp only [Bool.true_eq_false, if_false]
    simp only [hbuild, hsort1, hinvSome endId (Or.inr rfl), hdecr, hsort2, ← hrqF]
  · have hnd := hk3.nodupAll
    rw [hempty] at hnd
    rw [← hrqF]
    simpa [keysOf] using hnd
  · intro k
    constructor
    · intro hkg
      rcases hk3.partAll k hkg with h | h
      · rw [← hrqF]
        exact h
      · rw [hempty] at h
        simp [keysOf] at h
    · intro hkm
      rw [← hrqF] at hkm
      exact hk3.rqSub k hkm
  · intro l1 c l2 hsplit d hd hdne
    exact hk3.ordered l1 c l2 (by rw [hrqF]; exact hsplit) d hd hdne
  · intro b hb hdep
    have hb1 : b ∈ keysOf ecnt1 := hk1.endAlive rfl b hdep
    exact (List.disjoint_of_nodup_append hk1.nodupAll) hb hb1
  · intro a ha
    have ha2 : a ∈ keysOf ecnt2 := hext2 a ha
    rw [hkeys2] at ha2
    exact hDE1 a ha2

/-! ## Relating the registry to its dependency graph -/

theorem keysOf_graphOf (systems : List (SysId × SystemInfo)) :
    keysOf (graphOf systems) = keysOf systems := by
  rw [graphOf, keysOf, keysOf, List.map_map]
  rfl

theorem alGet_graphOf (systems : List (SysId × SystemInfo)) (c : SysId) :
    alGet (graphOf systems) c = (alGet systems c).map (fun info => info.dependencies) := by
  have h := alGet_mapVals (fun _ info => SystemInfo.dependencies info) systems c
  exact h

theorem graphOK_of_stage {s : Stage} (hnd : (keysOf s.systems).Nodup)
    (hend : s.has_system_dyn endId = false)
    (hdeps : ∀ p ∈ s.systems, ∀ d ∈ p.2.dependencies,
      s.has_system_dyn d = true ∨ d = endId) :
    GraphOK (graphOf s.systems) := by
  refine ⟨?_, ?_, ?_⟩
  · rw [keysOf_graphOf]
    exact hnd
  · rw [keysOf_graphOf]
    intro hmem
    have h1 : (alGet s.systems endId).isSome = true := alGet_isSome.mpr hmem
    rw [Stage.has_system_dyn, h1] at hend
    cases hend
  · intro p hp d hd
    obtain ⟨q, hq, hpq⟩ := List.mem_map.mp hp
    have hd' : d ∈ q.2.dependencies := by
      rw [← hpq] at hd
      exact hd
    rcases hdeps q hq d hd' with h | h
    · left
      rw [keysOf_graphOf]
      rw [Stage.has_system_dyn] at h
      exact alGet_isSome.mp h
    · exact Or.inr h

theorem acyclic_of_stage {s : Stage}
    (hacy : ∃ r : SysId → Nat, ∀ p ∈ s.systems, ∀ d ∈ p.2.dependencies, r d < r p.1) :
    AcyclicGraph (graphOf s.systems) := by
  obtain ⟨r, hr⟩ := hacy
  refine ⟨r, ?_⟩
  intro p hp d hd
  obtain ⟨q, hq, hpq⟩ := List.mem_map.mp hp
  have hd' : d ∈ q.2.dependencies := by
    rw [← hpq] at hd
    exact hd
  have := hr q hq d hd'
  rw [← hpq]
  exact this

theorem depsOf_graphOf {s : Stage} {c : SysId} {info : SystemInfo}
    (h : alGet s.systems c = some info) :
    depsOf (graphOf s.systems) c = info.dependencies := by
  rw [depsOf, alGet_graphOf, h]
  rfl

/-! ## `Stage::update` and `Stage::run` bookkeeping -/

/-- `Stage::update` touches nothing but the cached run queue. -/
theorem update_fields {s s' : Stage} (h : s.update = some s') :
    s'.systems = s.systems ∧ s'.need_update = s.need_update ∧
      s'.need_init = s.need_init := by
  rw [Stage.update] at h
  by_cases hu : s.need_update = false
  · rw [if_pos hu] at h
    injection h with h
    rw [← h]
    exact ⟨rfl, rfl, rfl⟩
  · rw [if_neg hu] at h
    split at h
    · cases h
    · split at h
      · cases h
      · split at h
        · injection h with h
          rw [← h]
          exact ⟨rfl, rfl, rfl⟩
        · split at h
          · cases h
          · split at h
            · cases h
            · injection h with h
              rw [← h]
              exact ⟨rfl, rfl, rfl⟩

/-- The per-system flags used by the execution loop. -/
def activeIn (systems : List (SysId × SystemInfo)) (i : SysId) : Bool :=
  ((alGet systems i).map SystemInfo.is_active).getD false

/-- Whether the execution loop schedules `i` for removal after the pass. -/
def onceIn (systems : List (SysId × SystemInfo)) (i : SysId) : Bool :=
  ((alGet systems i).map (fun info => info.is_active && info.is_once)).getD false

theorem execPass_spec (systems : List (SysId × SystemInfo)) (q : List SysId)
    (hq : ∀ i ∈ q, (alGet systems i).isSome = true) :
    execPass systems q
      = some (q.filter (activeIn systems), q.filter (onceIn systems)) := by
  induction q with
  | nil => rfl
  | cons i rest ih =>
      have hi : (alGet systems i).isSome = true := hq i (List.mem_cons_self _ _)
      obtain ⟨info, hinfo⟩ := Option.isSome_iff_exists.mp hi
      have hrest : execPass systems rest
          = some (rest.filter (activeIn systems), rest.filter (onceIn systems)) :=
        ih (fun j hj => hq j (List.mem_cons_of_mem _ hj))
      rw [show execPass systems (i :: rest)
          = match alGet systems i with
            | none => none
            | some info =>
              match execPass systems rest with
              | none => none
              | some (tr, rm) =>
                  if info.is_active then
                    if info.is_once then some (i :: tr, i :: rm)
                    else some (i :: tr, rm)
                  else some (tr, rm) from rfl]
      rw [hinfo, hrest]
      have hact : activeIn systems i = info.is_active := by
        rw [activeIn, hinfo]
        rfl
      have honce : onceIn systems i = (info.is_active && info.is_once) := by
        rw [onceIn, hinfo]
        rfl
      rw [List.filter_cons, List.filter_cons, hact, honce]
      cases ha : info.is_active with
      | false => simp [ha]
      | true =>
          cases ho : info.is_once with
          | false => simp [ha, ho]
          | true => simp [ha, ho]

/-- Characterization of a successful `Stage::run`. -/
theorem run_spec {s s2 : Stage} {tr : List SysId} (h : s.run = some (s2, tr)) :
    ∃ s1 rm, s.update = some s1 ∧
      (s1.need_init.all (fun id => (alGet s1.systems id).isSome) = true) ∧
      execPass s1.systems s1.run_queue = some (tr, rm) ∧
      s2 = { s1 with need_init := ([] : List SysId), systems := rm.foldl (fun m id => alErase m id) s1.systems } := by
  rw [Stage.run] at h
  cases hu : s.update with
  | none =>
      simp only [hu] at h
      exact Option.noConfusion h
  | some s1 =>
      simp only [hu] at h
      by_cases hinit : (s1.need_init.all fun id => (alGet s1.systems id).isSome) = true
      · rw [if_pos hinit] at h
        cases hex : execPass s1.systems s1.run_queue with
        | none =>
            simp only [hex] at h
            exact Option.noConfusion h
        | some pr =>
            obtain ⟨tr', rm⟩ := pr
            simp only [hex] at h
            injection h with h
            injection h with h1 h2
            subst h2
            exact ⟨s1, rm, rfl, hinit, hex, h1.symm⟩
      · rw [if_neg hinit] at h
        cases h

/-- Building a successful `Stage::run` from its parts. -/
theorem run_build {s s1 : Stage} (hu : s.update = some s1)
    (hinit : s1.need_init.all (fun id => (alGet s1.systems id).isSome) = true)
    {tr rm : List SysId} (hex : execPass s1.systems s1.run_queue = some (tr, rm)) :
    s.run = some ({ s1 with need_init := ([] : List SysId), systems := rm.foldl (fun m id => alErase m id) s1.systems }, tr) := by
  rw [Stage.run]
  simp only [hu, if_pos hinit, hex]

/-! ## Further association-list and execution-loop helpers -/

theorem keysOf_alInsert_iff {α : Type} (m : List (SysId × α)) (k j : SysId) (v : α) :
    j ∈ keysOf (alInsert m k v) ↔ j ∈ keysOf m ∨ j = k := by
  by_cases hk : k ∈ keysOf m
  · rw [keysOf_alInsert_mem _ hk]
    constructor
    · exact Or.inl
    · rintro (h | h)
      · exact h
      · subst h
        exact hk
  · rw [alInsert_not_mem _ hk, keysOf, List.map_append]
    simp [keysOf]

theorem nodup_keysOf_alInsert {α : Type} {m : List (SysId × α)} (k : SysId) (v : α)
    (h : (keysOf m).Nodup) : (keysOf (alInsert m k v)).Nodup := by
  by_cases hk : k ∈ keysOf m
  · rw [keysOf_alInsert_mem _ hk]
    exact h
  · rw [alInsert_not_mem _ hk, keysOf, List.map_append]
    rw [List.nodup_append]
    refine ⟨h, by simp, ?_⟩
    intro a ha hb
    simp [keysOf] at hb
    subst hb
    exact hk ha

theorem alInsert_alInsert {α : Type} (m : List (SysId × α)) (k : SysId) (a b : α) :
    alInsert (alInsert m k a) k b = alInsert m k b := by
  induction m with
  | nil => simp [alInsert]
  | cons p rest ih =>
      obtain ⟨k0, v0⟩ := p
      by_cases hk : k0 = k
      · simp [alInsert, hk]
      · simp [alInsert, hk, ih]

theorem mem_keysOf_foldl_alInsert (g : List (SysId × List SysId)) (j : SysId) :
    ∀ acc : List (SysId × List SysId),
    (j ∈ keysOf (g.foldl (fun m p => alInsert m p.1 []) acc) ↔
      j ∈ keysOf acc ∨ j ∈ keysOf g) := by
  induction g with
  | nil =>
      intro acc
      simp [keysOf]
  | cons p rest ih =>
      intro acc
      rw [List.foldl_cons, ih, keysOf_alInsert_iff]
      have hcons : j ∈ keysOf (p :: rest) ↔ j = p.1 ∨ j ∈ keysOf rest := by
        simp [keysOf]
      rw [hcons]
      tauto

theorem mem_keysOf_initInv (g : List (SysId × List SysId)) (j : SysId) :
    j ∈ keysOf (initInv g) ↔ j ∈ keysOf g ∨ j = endId := by
  rw [initInv, keysOf_alInsert_iff, mem_keysOf_foldl_alInsert]
  simp [keysOf]

/-- Every system that the execution loop traces or schedules for removal is
looked up successfully, is active, and (for the removal list) once-marked. -/
theorem execPass_trace_flags {systems : List (SysId × SystemInfo)} {q tr rm : List SysId}
    (h : execPass systems q = some (tr, rm)) :
    (∀ i ∈ tr, activeIn systems i = true) ∧ (∀ i ∈ rm, onceIn systems i = true) := by
  induction q generalizing tr rm with
  | nil =>
      rw [show execPass systems [] = some ([], []) from rfl] at h
      injection h with h
      injection h with h1 h2
      subst h1
      subst h2
      exact ⟨by simp, by simp⟩
  | cons i rest ih =>
      rw [show execPass systems (i :: rest)
          = match alGet systems i with
            | none => none
            | some info =>
              match execPass systems rest with
              | none => none
              | some (tr, rm) =>
                  if info.is_active then
                    if info.is_once then some (i :: tr, i :: rm)
                    else some (i :: tr, rm)
                  else some (tr, rm) from rfl] at h
      cases hinfo : alGet systems i with
      | none =>
          simp only [hinfo] at h
          exact Option.noConfusion h
      | some info =>
          simp only [hinfo] at h
          cases hrest : execPass systems rest with
          | none =>
              simp only [hrest] at h
              exact Option.noConfusion h
          | some pr =>
              obtain ⟨tr', rm'⟩ := pr
              simp only [hrest] at h
              obtain ⟨htr', hrm'⟩ := ih hrest
              have hact : activeIn systems i = info.is_active := by
                rw [activeIn, hinfo]
                rfl
              have honce : onceIn systems i = (info.is_active && info.is_once) := by
                rw [onceIn, hinfo]
                rfl
              cases ha : info.is_active with
              | false =>
                  rw [ha] at h
                  simp only [Bool.false_eq_true, if_false] at h
                  injection h with h
                  injection h with h1 h2
                  subst h1
                  subst h2
                  exact ⟨htr', hrm'⟩
              | true =>
                  rw [ha] at h
                  simp only [if_true] at h
                  cases ho : info.is_once with
                  | false =>
                      rw [ho] at h
                      simp only [Bool.false_eq_true, if_false] at h
                      injection h with h
                      injection h with h1 h2
                      subst h1
                      subst h2
                      refine ⟨?_, hrm'⟩
                      intro j hj
                      rcases List.mem_cons.mp hj with hj | hj
                      · subst hj
                        rw [hact, ha]
                      · exact htr' j hj
                  | true =>
                      rw [ho] at h
                      simp only [if_true] at h
                      injection h with h
                      injection h with h1 h2
                      subst h1
                      subst h2
                      constructor
                      · intro j hj
                        rcases List.mem_cons.mp hj with hj | hj
                        · subst hj
                          rw [hact, ha]
                        · exact htr' j hj
                      · intro j hj
                        rcases List.mem_cons.mp hj with hj | hj
                        · subst hj
                          rw [honce, ha, ho]
                          rfl
                        · exact hrm' j hj

theorem graphOf_alInsert_same_deps {m : List (SysId × SystemInfo)} {id : SysId}
    {info info' : SystemInfo} (h : alGet m id = some info)
    (hdeps : info'.dependencies = info.dependencies) :
    graphOf (alInsert m id info') = graphOf m := by
  induction m with
  | nil => simp [alGet] at h
  | cons p rest ih =>
      obtain ⟨k0, v0⟩ := p
      by_cases hk : k0 = id
      · subst hk
        rw [show alGet ((k0, v0) :: rest) k0 = some v0 by simp [alGet]] at h
        injection h with h
        subst h
        rw [show alInsert ((k0, v0) :: rest) k0 info' = (k0, info') :: rest by
          simp [alInsert]]
        rw [graphOf, graphOf, List.map_cons, List.map_cons]
        simp [hdeps]
      · rw [show alGet ((k0, v0) :: rest) id = alGet rest id by simp [alGet, hk]] at h
        rw [show alInsert ((k0, v0) :: rest) id info' = (k0, v0) :: alInsert rest id info'
          by simp [alInsert, hk]]
        have hih := ih h
        rw [graphOf, graphOf] at hih
        rw [graphOf, graphOf, List.map_cons, List.map_cons, hih]

/-- The rebuilt run queue depends only on the dirty flag, the cached queue
and the dependency graph — the active/once flags and instance payloads are
irrelevant to it. -/
theorem update_run_queue_congr {s t : Stage} (hflag : s.need_update = t.need_update)
    (hrq : s.run_queue = t.run_queue) (hg : graphOf s.systems = graphOf t.systems) :
    (s.update).map (fun u => u.run_queue) = (t.update).map (fun u => u.run_queue) := by
  rw [Stage.update, Stage.update, hflag, hg]
  by_cases hb : t.need_update = false
  · rw [if_pos hb, if_pos hb]
    simp [hrq]
  · rw [if_neg hb, if_neg hb]
    repeat' split
    all_goals rfl

/-! ## Claim theorems -/

/-- C1: for every stage whose registered systems' dependency graph is acyclic
(witnessed by a rank function) and whose every declared dependency names a
registered system (or the synthetic `End` barrier), the run order computed by
the schedule rebuild — and used unchanged by `run()` — contains every
registered system and places each system's every declared non-barrier
dependency strictly before that system. -/
theorem c1_dependency_before_dependent (s : Stage)
    (hnd : (keysOf s.systems).Nodup)
    (hend : s.has_system_dyn endId = false)
    (hdeps : ∀ p ∈ s.systems, ∀ d ∈ p.2.dependencies,
      s.has_system_dyn d = true ∨ d = endId)
    (hacy : ∃ r : SysId → Nat, ∀ p ∈ s.systems, ∀ d ∈ p.2.dependencies, r d < r p.1)
    (hupd : s.need_update = true) :
    ∃ s', s.update = some s' ∧ s'.systems = s.systems ∧
      (∀ p ∈ s.systems, p.1 ∈ s'.run_queue) ∧
      (∀ l1 c l2, s'.run_queue = l1 ++ c :: l2 →
        ∀ info, alGet s.systems c = some info →
          ∀ d ∈ info.dependencies, d ≠ endId → d ∈ l1) ∧
      (∀ s2 tr, s.run = some (s2, tr) → s2.run_queue = s'.run_queue) := by
  have hg := graphOK_of_stage hnd hend hdeps
  have hac := acyclic_of_stage hacy
  obtain ⟨rq1, rq2, hupdeq, hnodup, hcompl, hord, hfree, hdep⟩ :=
    update_spec s hg hac hupd
  refine ⟨{ s with run_queue := rq1 ++ rq2 }, hupdeq, rfl, ?_, ?_, ?_⟩
  · intro p hp
    have hmem : p.1 ∈ keysOf (graphOf s.systems) := by
      rw [keysOf_graphOf]
      exact mem_keysOf hp
    exact (hcompl p.1).mp hmem
  · intro l1 c l2 hsplit info hinfo d hd hdne
    apply hord l1 c l2 hsplit d _ hdne
    rw [depsOf_graphOf hinfo]
    exact hd
  · intro s2 tr hrun
    obtain ⟨s1, rm, hu1, _, _, hs2⟩ := run_spec hrun
    rw [hupdeq] at hu1
    injection hu1 with hu1
    rw [hs2, ← hu1]

/-- C2: for every such stage, every system transitively dependent on the
`End` barrier appears in the computed order strictly after every system that
is not: the order is the concatenation of the barrier-free partition and the
barrier-dependent partition. -/
theorem c2_barrier_dependents_last (s : Stage)
    (hnd : (keysOf s.systems).Nodup)
    (hend : s.has_system_dyn endId = false)
    (hdeps : ∀ p ∈ s.systems, ∀ d ∈ p.2.dependencies,
      s.has_system_dyn d = true ∨ d = endId)
    (hacy : ∃ r : SysId → Nat, ∀ p ∈ s.systems, ∀ d ∈ p.2.dependencies, r d < r p.1)
    (hupd : s.need_update = true) :
    ∃ s', s.update = some s' ∧
      ∀ a ∈ s'.run_queue, ∀ b ∈ s'.run_queue,
        DepEnd (graphOf s.systems) a → ¬DepEnd (graphOf s.systems) b →
        ∀ l1 l2, s'.run_queue = l1 ++ a :: l2 → b ∈ l1 := by
  have hg := graphOK_of_stage hnd hend hdeps
  have hac := acyclic_of_stage hacy
  obtain ⟨rq1, rq2, hupdeq, hnodup, hcompl, hord, hfree, hdep⟩ :=
    update_spec s hg hac hupd
  refine ⟨{ s with run_queue := rq1 ++ rq2 }, hupdeq, ?_⟩
  intro a ha b hb hda hdb l1 l2 hsplit
  dsimp only at ha hb hsplit
  have hanotin : a ∉ rq1 := fun hmem => hfree a hmem hda
  have hbin : b ∈ rq1 := by
    rcases List.mem_append.mp hb with h | h
    · exact h
    · exact absurd (hdep b h) hdb
  rcases List.append_eq_append_iff.mp hsplit with ⟨a', ha1, _⟩ | ⟨c', hc1, hc2⟩
  · rw [ha1]
    exact List.mem_append_left _ hbin
  · cases c' with
    | nil =>
        rw [List.append_nil] at hc1
        rw [← hc1]
        exact hbin
    | cons e t =>
        exfalso
        rw [List.cons_append] at hc2
        have hae : a = e := by
          injection hc2
        apply hanotin
        rw [hc1, hae]
        exact List.mem_append_right _ (List.mem_cons_self _ _)

/-- A concrete stage used to witness the scheduler claims: system 2 has no
dependencies, system 3 depends on 2, system 4 depends on the `End` barrier. -/
def stageC : Stage :=
  { systems := [(2, ⟨[], true, false, []⟩), (3, ⟨[2], true, false, []⟩),
      (4, ⟨[endId], true, false, []⟩)],
    need_update := true, run_queue := [], need_init := [] }

theorem c1_witness :
    ((keysOf stageC.systems).Nodup ∧
      stageC.has_system_dyn endId = false ∧
      (∀ p ∈ stageC.systems, ∀ d ∈ p.2.dependencies,
        stageC.has_system_dyn d = true ∨ d = endId) ∧
      (∃ r : SysId → Nat, ∀ p ∈ stageC.systems, ∀ d ∈ p.2.dependencies,
        r d < r p.1) ∧
      stageC.need_update = true) ∧
    (∃ s', stageC.update = some s' ∧ s'.systems = stageC.systems ∧
      (∀ p ∈ stageC.systems, p.1 ∈ s'.run_queue) ∧
      (∀ l1 c l2, s'.run_queue = l1 ++ c :: l2 →
        ∀ info, alGet stageC.systems c = some info →
          ∀ d ∈ info.dependencies, d ≠ endId → d ∈ l1) ∧
      (∀ s2 tr, stageC.run = some (s2, tr) → s2.run_queue = s'.run_queue)) := by
  have hacy : ∃ r : SysId → Nat, ∀ p ∈ stageC.systems, ∀ d ∈ p.2.dependencies,
      r d < r p.1 := ⟨fun k => k, by decide⟩
  exact ⟨⟨by decide, by decide, by decide, hacy, rfl⟩,
    c1_dependency_before_dependent stageC (by decide) (by decide) (by decide) hacy rfl⟩

theorem c2_witness :
    ((keysOf stageC.systems).Nodup ∧
      stageC.has_system_dyn endId = false ∧
      (∀ p ∈ stageC.systems, ∀ d ∈ p.2.dependencies,
        stageC.has_system_dyn d = true ∨ d = endId) ∧
      (∃ r : SysId → Nat, ∀ p ∈ stageC.systems, ∀ d ∈ p.2.dependencies,
        r d < r p.1) ∧
      stageC.need_update = true) ∧
    (∃ s', stageC.update = some s' ∧
      ∀ a ∈ s'.run_queue, ∀ b ∈ s'.run_queue,
        DepEnd (graphOf stageC.systems) a → ¬DepEnd (graphOf stageC.systems) b →
        ∀ l1 l2, s'.run_queue = l1 ++ a :: l2 → b ∈ l1) := by
  have hacy : ∃ r : SysId → Nat, ∀ p ∈ stageC.systems, ∀ d ∈ p.2.dependencies,
      r d < r p.1 := ⟨fun k => k, by decide⟩
  exact ⟨⟨by decide, by decide, by decide, hacy, rfl⟩,
    c2_barrier_dependents_last stageC (by decide) (by decide) (by decide) hacy rfl⟩

/-- A stage whose two systems form a true dependency cycle (2 ↔ 3), with a
stale cached order, used as the failing input of C3. -/
def stageCyc : Stage :=
  { systems := [(2, ⟨[3], true, false, []⟩), (3, ⟨[2], true, false, []⟩)],
    need_update := true, run_queue := [7], need_init := [] }

/-- C3 (code bug, per the spec's own design note): on a true dependency
cycle the rebuild does **not** detect the cycle and does not fail — `update`
succeeds and silently produces an empty run order that drops both registered
systems of the cycle. -/
theorem c3_cycle_silently_dropped :
    stageCyc.update = some { stageCyc with run_queue := [] } ∧
    (∃ info, alGet stageCyc.systems 2 = some info) ∧
    (∃ info, alGet stageCyc.systems 3 = some info) := by
  refine ⟨?_, ⟨⟨[3], true, false, []⟩, rfl⟩, ⟨⟨[2], true, false, []⟩, rfl⟩⟩
  rw [Stage.update, if_neg (by decide)]
  have hbuild : buildInv (initInv (graphOf stageCyc.systems)) (graphOf stageCyc.systems)
      = some [(2, [3]), (3, [2]), (0, [])] := rfl
  have hic : initCounts (graphOf stageCyc.systems) = [(2, 1), (3, 1)] := rfl
  have hsort1 : kahnSort [(2, [3]), (3, [2]), (0, [])]
      (initCounts (graphOf stageCyc.systems)) [] = some ([(2, 1), (3, 1)], []) := by
    rw [hic]
    exact kahnSort_none _ _ _ rfl
  have hgetEnd : alGet [(2, [3]), (3, [2]), (0, ([] : List SysId))] endId = some [] := rfl
  have hdecr : decrList [] [(2, 1), (3, 1)] = some [(2, 1), (3, 1)] := rfl
  have hsort2 : kahnSort [(2, [3]), (3, [2]), (0, [])] [(2, 1), (3, 1)] []
      = some ([(2, 1), (3, 1)], []) := kahnSort_none _ _ _ rfl
  simp only [hbuild, hsort1, hgetEnd, hdecr, hsort2]

/-- A clean (non-dirty) stage with a cached order, used to exhibit that the
dependency mutators do not mark the schedule dirty. -/
def stageFlag : Stage :=
  { systems := [(5, ⟨[], true, false, []⟩), (6, ⟨[5], true, false, []⟩)],
    need_update := false, run_queue := [5, 6], need_init := [] }

/-- C4 (code bug): the dirty flag does not follow the claimed state machine.
A successful rebuild leaves `need_update` exactly as it was — the source
never clears it, so after a rebuild the schedule is still DIRTY and the next
`run()` rebuilds again — and `add_dependency`/`remove_dependency` never set
it.  At the concrete dirty stage `stageC` the rebuild succeeds with the flag
still `true`; on the concrete clean stage `stageFlag` a dependency edit
leaves the flag `false`. -/
theorem c4_dirty_flag_not_maintained :
    (∀ s s' : Stage, s.update = some s' → s'.need_update = s.need_update) ∧
    (∀ (s s' : Stage) (src dep : SysId), s.add_dependency src dep = some s' →
      s'.need_update = s.need_update) ∧
    (∀ (s s' : Stage) (src dep : SysId), s.remove_dependency src dep = some s' →
      s'.need_update = s.need_update) ∧
    (∃ s', stageC.update = some s' ∧ s'.need_update = true) := by
  refine ⟨?_, ?_, ?_, ?_⟩
  · intro s s' h
    exact (update_fields h).2.1
  · intro s s' src dep h
    rw [Stage.add_dependency] at h
    cases hsrc : alGet s.systems src with
    | none =>
        simp only [hsrc] at h
        exact Option.noConfusion h
    | some info =>
        simp only [hsrc] at h
        by_cases hdep : dep ∈ info.dependencies
        · rw [if_pos hdep] at h
          exact Option.noConfusion h
        · rw [if_neg hdep] at h
          injection h with h
          rw [← h]
  · intro s s' src dep h
    rw [Stage.remove_dependency] at h
    cases hsrc : alGet s.systems src with
    | none =>
        simp only [hsrc] at h
        exact Option.noConfusion h
    | some info =>
        simp only [hsrc] at h
        by_cases hdep : dep ∈ info.dependencies
        · rw [if_pos hdep] at h
          injection h with h
          rw [← h]
        · rw [if_neg hdep] at h
          exact Option.noConfusion h
  · obtain ⟨rq1, rq2, hupdeq, _, _, _, _, _⟩ :=
      update_spec stageC (graphOK_of_stage (by decide) (by decide) (by decide))
        (acyclic_of_stage ⟨fun k => k, by decide⟩) rfl
    exact ⟨_, hupdeq, rfl⟩

/-- C4 witness: a dependency edit on the concrete clean stage leaves the
schedule flag clear. -/
theorem c4_witness :
    ∃ s', Stage.add_dependency stageFlag 5 6 = some s' ∧ s'.need_update = false := by
  refine ⟨_, rfl, ?_⟩
  have h := c4_dirty_flag_not_maintained.2.1 stageFlag _ 5 6 rfl
  exact h.trans rfl

/-- C5: at rebuild time, a registered system whose dependency set names an
identifier that is neither a registered system nor the `End` barrier makes
the rebuild panic (fail fast) instead of producing a run order. -/
theorem c5_unknown_dependency_fatal (s : Stage) (c : SysId) (info : SystemInfo)
    (d : SysId) (hupd : s.need_update = true)
    (hc : (c, info) ∈ s.systems) (hd : d ∈ info.dependencies)
    (hdreg : s.has_system_dyn d = false) (hdne : d ≠ endId) :
    s.update = none := by
  rw [Stage.update, if_neg (by simp [hupd])]
  have hmem : (c, info.dependencies) ∈ graphOf s.systems :=
    List.mem_map.mpr ⟨(c, info), hc, rfl⟩
  have habs : d ∉ keysOf (initInv (graphOf s.systems)) := by
    rw [mem_keysOf_initInv]
    rintro (h | h)
    · rw [keysOf_graphOf] at h
      have h1 : (alGet s.systems d).isSome = true := alGet_isSome.mpr h
      rw [Stage.has_system_dyn, h1] at hdreg
      cases hdreg
    · exact hdne h
  rw [buildInv_none hmem hd habs]

/-- C5 witness: a concrete stage whose only system names the unregistered
identifier 9 as a dependency. -/
def stageBadDep : Stage :=
  { systems := [(2, ⟨[9], true, false, []⟩)],
    need_update := true, run_queue := [], need_init := [] }

theorem c5_witness :
    (stageBadDep.need_update = true ∧
      (2, (⟨[9], true, false, []⟩ : SystemInfo)) ∈ stageBadDep.systems ∧
      (9 : SysId) ∈ (⟨[9], true, false, []⟩ : SystemInfo).dependencies ∧
      stageBadDep.has_system_dyn 9 = false ∧ (9 : SysId) ≠ endId) ∧
    stageBadDep.update = none := by
  refine ⟨⟨rfl, by decide, by decide, rfl, by decide⟩, ?_⟩
  exact c5_unknown_dependency_fatal stageBadDep 2 ⟨[9], true, false, []⟩ 9
    rfl (by decide) (by decide) rfl (by decide)

/-- C6: `add_dependency` and `remove_dependency` fail loudly (panic) exactly
when the source system is unregistered, or — for `add_dependency` — the edge
is already present, respectively — for `remove_dependency` — the edge is
absent. -/
theorem c6_dependency_mutation_failure_conditions (s : Stage) (src dep : SysId) :
    (s.add_dependency src dep = none ↔
      alGet s.systems src = none ∨
      ∃ info, alGet s.systems src = some info ∧ dep ∈ info.dependencies) ∧
    (s.remove_dependency src dep = none ↔
      alGet s.systems src = none ∨
      ∃ info, alGet s.systems src = some info ∧ dep ∉ info.dependencies) := by
  constructor
  · cases hsrc : alGet s.systems src with
    | none =>
        rw [Stage.add_dependency]
        simp [hsrc]
    | some info =>
        rw [Stage.add_dependency]
        simp only [hsrc]
        by_cases hdep : dep ∈ info.dependencies
        · simp [hdep]
        · simp [hdep]
  · cases hsrc : alGet s.systems src with
    | none =>
        rw [Stage.remove_dependency]
        simp [hsrc]
    | some info =>
        rw [Stage.remove_dependency]
        simp only [hsrc]
        by_cases hdep : dep ∈ info.dependencies
        · simp [hdep]
        · simp [hdep]

theorem c6_witness :
    Stage.add_dependency stageFlag 99 5 = none ∧
    Stage.remove_dependency stageFlag 6 9 = none := by
  constructor
  · exact (c6_dependency_mutation_failure_conditions stageFlag 99 5).1.mpr (Or.inl rfl)
  · exact (c6_dependency_mutation_failure_conditions stageFlag 6 9).2.mpr
      (Or.inr ⟨⟨[5], true, false, []⟩, rfl, by decide⟩)

/-- C7: a once-marked active system in a well-formed acyclic dirty stage is
executed on the first pass (it appears in the trace), is removed from the
registry at the end of that pass, and — since a pass never re-adds systems —
remains absent and unexecuted on every later pass. -/
theorem c7_once_system_runs_exactly_once (s : Stage) (id : SysId) (info : SystemInfo)
    (hnd : (keysOf s.systems).Nodup)
    (hend : s.has_system_dyn endId = false)
    (hdeps : ∀ p ∈ s.systems, ∀ d ∈ p.2.dependencies,
      s.has_system_dyn d = true ∨ d = endId)
    (hacy : ∃ r : SysId → Nat, ∀ p ∈ s.systems, ∀ d ∈ p.2.dependencies, r d < r p.1)
    (hupd : s.need_update = true)
    (hinit : ∀ i ∈ s.need_init, s.has_system_dyn i = true)
    (hid : alGet s.systems id = some info)
    (hactive : info.is_active = true) (honce : info.is_once = true) :
    (∃ s2 tr, s.run = some (s2, tr) ∧ id ∈ tr ∧ alGet s2.systems id = none) ∧
    (∀ (t t2 : Stage) (tr2 : List SysId), alGet t.systems id = none →
      t.run = some (t2, tr2) → alGet t2.systems id = none ∧ id ∉ tr2) := by
  constructor
  · have hg := graphOK_of_stage hnd hend hdeps
    have hac := acyclic_of_stage hacy
    obtain ⟨rq1, rq2, hupdeq, hnodup, hcompl, hord, hfree, hdep⟩ :=
      update_spec s hg hac hupd
    have hidmem : id ∈ keysOf s.systems := alGet_isSome.mp (by rw [hid]; rfl)
    have hinit1 : (({ s with run_queue := rq1 ++ rq2 } : Stage).need_init.all
        fun i => (alGet ({ s with run_queue := rq1 ++ rq2 } : Stage).systems i).isSome)
        = true := by
      rw [List.all_eq_true]
      intro i hi
      have h1 := hinit i hi
      rw [Stage.has_system_dyn] at h1
      exact h1
    have hqmem : ∀ i ∈ ({ s with run_queue := rq1 ++ rq2 } : Stage).run_queue,
        (alGet s.systems i).isSome = true := by
      intro i hi
      have hik : i ∈ keysOf (graphOf s.systems) := (hcompl i).mpr hi
      rw [keysOf_graphOf] at hik
      exact alGet_isSome.mpr hik
    have hex := execPass_spec s.systems (rq1 ++ rq2) hqmem
    have hrun := run_build hupdeq hinit1 hex
    refine ⟨_, _, hrun, ?_, ?_⟩
    · apply List.mem_filter.mpr
      refine ⟨?_, ?_⟩
      · apply (hcompl id).mp
        rw [keysOf_graphOf]
        exact hidmem
      · rw [activeIn, hid]
        simp [hactive]
    · show alGet (((rq1 ++ rq2).filter (onceIn s.systems)).foldl
        (fun m i => alErase m i) s.systems) id = none
      apply alGet_foldlErase_mem _ _ _ hnd
      apply List.mem_filter.mpr
      refine ⟨?_, ?_⟩
      · apply (hcompl id).mp
        rw [keysOf_graphOf]
        exact hidmem
      · rw [onceIn, hid]
        simp [hactive, honce]
  · intro t t2 tr2 habs hrun
    obtain ⟨t1, rm, hu, hini, hex, ht2⟩ := run_spec hrun
    have hsys : t1.systems = t.systems := (update_fields hu).1
    constructor
    · rw [ht2]
      show alGet (rm.foldl (fun m i => alErase m i) t1.systems) id = none
      apply alGet_foldlErase_absent
      rw [hsys]
      exact habs
    · intro htr
      have hflag := (execPass_trace_flags hex).1 id htr
      rw [activeIn, hsys, habs] at hflag
      simp at hflag

/-- A concrete stage holding a single active once-marked system. -/
def stageOnce : Stage :=
  { systems := [(2, ⟨[], true, true, []⟩)],
    need_update := true, run_queue := [], need_init := [] }

theorem c7_witness :
    ((keysOf stageOnce.systems).Nodup ∧
      stageOnce.has_system_dyn endId = false ∧
      (∀ p ∈ stageOnce.systems, ∀ d ∈ p.2.dependencies,
        stageOnce.has_system_dyn d = true ∨ d = endId) ∧
      (∃ r : SysId → Nat, ∀ p ∈ stageOnce.systems, ∀ d ∈ p.2.dependencies,
        r d < r p.1) ∧
      stageOnce.need_update = true ∧
      (∀ i ∈ stageOnce.need_init, stageOnce.has_system_dyn i = true) ∧
      alGet stageOnce.systems 2 = some ⟨[], true, true, []⟩) ∧
    ((∃ s2 tr, stageOnce.run = some (s2, tr) ∧ 2 ∈ tr ∧ alGet s2.systems 2 = none) ∧
      (∀ (t t2 : Stage) (tr2 : List SysId), alGet t.systems 2 = none →
        t.run = some (t2, tr2) → alGet t2.systems 2 = none ∧ 2 ∉ tr2)) := by
  have hacy : ∃ r : SysId → Nat, ∀ p ∈ stageOnce.systems, ∀ d ∈ p.2.dependencies,
      r d < r p.1 := ⟨fun k => k, by decide⟩
  exact ⟨⟨by decide, by decide, by decide, hacy, rfl, by decide, rfl⟩,
    c7_once_system_runs_exactly_once stageOnce 2 ⟨[], true, true, []⟩
      (by decide) (by decide) (by decide) hacy rfl (by decide) rfl rfl rfl⟩

/-- C8: `deactivate_dyn` on a registered system changes only that system's
active flag — registry keys, dependency edges, once flags, the dirty flag,
the cached order and the pending-initialization list are untouched, and a
rebuild from the resulting stage computes the identical run order.  On the
next pass the system's hook is not invoked (it is absent from the trace),
and `activate_dyn` restores only the flag. -/
theorem c8_deactivate_changes_only_flag (s : Stage) (id : SysId) (info : SystemInfo)
    (hid : alGet s.systems id = some info) :
    ∃ s', s.deactivate_dyn id = some s' ∧
      s'.systems = alInsert s.systems id { info with is_active := false } ∧
      s'.need_update = s.need_update ∧
      s'.run_queue = s.run_queue ∧
      s'.need_init = s.need_init ∧
      graphOf s'.systems = graphOf s.systems ∧
      (s'.update).map (fun u => u.run_queue) = (s.update).map (fun u => u.run_queue) ∧
      (∀ s2 tr, s'.run = some (s2, tr) → id ∉ tr) ∧
      s'.activate_dyn id
        = some { s' with systems := alInsert s.systems id { info with is_active := true } } := by
  have hmod := alModify_some (fun i => { i with is_active := false }) hid
  have hdeact : s.deactivate_dyn id
      = some { s with systems := alInsert s.systems id { info with is_active := false } } := by
    rw [Stage.deactivate_dyn]
    simp only [hmod]
  have hgraph : graphOf (alInsert s.systems id { info with is_active := false })
      = graphOf s.systems := graphOf_alInsert_same_deps hid rfl
  refine ⟨_, hdeact, rfl, rfl, rfl, rfl, hgraph, ?_, ?_, ?_⟩
  · exact update_run_queue_congr rfl rfl hgraph
  · intro s2 tr hrun
    obtain ⟨s1, rm, hu, hini, hex, ht2⟩ := run_spec hrun
    intro htr
    have hflag := (execPass_trace_flags hex).1 id htr
    have hsys : s1.systems = alInsert s.systems id { info with is_active := false } :=
      (update_fields hu).1
    rw [activeIn, hsys, alGet_alInsert_self] at hflag
    simp at hflag
  · rw [Stage.activate_dyn]
    have hget2 : alGet (alInsert s.systems id { info with is_active := false }) id
        = some { info with is_active := false } := alGet_alInsert_self _ _ _
    have hmod2 := alModify_some (fun i => { i with is_active := true }) hget2
    simp only [hmod2]
    rw [alInsert_alInsert]

theorem c8_witness :
    alGet stageC.systems 3 = some ⟨[2], true, false, []⟩ ∧
    (∃ s', stageC.deactivate_dyn 3 = some s' ∧
      s'.systems = alInsert stageC.systems 3 ⟨[2], false, false, []⟩ ∧
      s'.need_update = stageC.need_update ∧
      s'.run_queue = stageC.run_queue ∧
      s'.need_init = stageC.need_init ∧
      graphOf s'.systems = graphOf stageC.systems ∧
      (s'.update).map (fun u => u.run_queue)
        = (stageC.update).map (fun u => u.run_queue) ∧
      (∀ s2 tr, s'.run = some (s2, tr) → 3 ∉ tr) ∧
      s'.activate_dyn 3
        = some { s' with systems := alInsert stageC.systems 3 ⟨[2], true, false, []⟩ }) :=
  ⟨rfl, c8_deactivate_changes_only_flag stageC 3 ⟨[2], true, false, []⟩ rfl⟩

/-- C9: removing an entity from a sparse-set component column is fatal when
the entity is absent; for a present entity (in a column satisfying the
sparse→dense pointer invariant) the entry is erased: the entity no longer
answers `has`, and the column shrinks by one. -/
theorem c9_remove_absent_fatal (s : SparseSet) (id : Nat)
    (hnd : (keysOf s.sparse).Nodup)
    (hbound : ∀ p ∈ s.sparse, p.2 < s.dense.length) :
    (ComponentStorage.has s id = false → ComponentStorage.remove s id = none) ∧
    (ComponentStorage.has s id = true →
      ∃ s', ComponentStorage.remove s id = some s' ∧
        ComponentStorage.has s' id = false ∧
        ComponentStorage.count s' = ComponentStorage.count s - 1) := by
  constructor
  · intro habs
    rw [ComponentStorage.has, SparseSet.exist] at habs
    have hnone : s.get_index id = none := by
      cases hg : s.get_index id with
      | none => rfl
      | some i => rw [hg] at habs; cases habs
    rw [ComponentStorage.remove, SparseSet.removeEntry, hnone]
  · intro hpres
    rw [ComponentStorage.has, SparseSet.exist] at hpres
    obtain ⟨i, hi⟩ := Option.isSome_iff_exists.mp hpres
    have himem : (id, i) ∈ s.sparse := alGet_mem hi
    have hlt : i < s.dense.length := hbound (id, i) himem
    have hne : s.dense ≠ [] := by
      intro h
      rw [h] at hlt
      simp at hlt
    obtain ⟨lp, hlp⟩ := Option.isSome_iff_exists.mp (List.getLast?_isSome.mpr hne)
    refine ⟨SparseSet.mk ((s.dense.set i lp).dropLast)
      (alErase (alInsert s.sparse lp.1 i) id), ?_, ?_, ?_⟩
    · rw [ComponentStorage.remove, SparseSet.removeEntry, hi]
      simp only [hlp]
    · rw [ComponentStorage.has, SparseSet.exist, SparseSet.get_index]
      show ((alGet (alErase (alInsert s.sparse lp.1 i) id) id).isSome = false)
      rw [alGet_alErase_self (nodup_keysOf_alInsert _ _ hnd)]
      rfl
    · rw [ComponentStorage.count, ComponentStorage.count, SparseSet.len, SparseSet.len]
      show ((s.dense.set i lp).dropLast).length = s.dense.length - 1
      rw [List.length_dropLast, List.length_set]

/-- A concrete three-entity column for the C9 witness. -/
def columnC : SparseSet :=
  { dense := [(10, 100), (20, 200), (30, 300)],
    sparse := [(10, 0), (20, 1), (30, 2)] }

theorem c9_witness :
    ((keysOf columnC.sparse).Nodup ∧
      (∀ p ∈ columnC.sparse, p.2 < columnC.dense.length) ∧
      ComponentStorage.has columnC 20 = true ∧
      ComponentStorage.has columnC 99 = false) ∧
    (ComponentStorage.remove columnC 99 = none) ∧
    (∃ s', ComponentStorage.remove columnC 20 = some s' ∧
      ComponentStorage.has s' 20 = false ∧
      ComponentStorage.count s' = ComponentStorage.count columnC - 1) := by
  refine ⟨⟨by decide, by decide, rfl, rfl⟩, ?_, ?_⟩
  · exact (c9_remove_absent_fatal columnC 99 (by decide) (by decide)).1 rfl
  · exact (c9_remove_absent_fatal columnC 20 (by decide) (by decide)).2 rfl

/-! ## C10: the Errors registry record -/

theorem registerInErrors_spec {systems : List (SysId × SystemInfo)} {v : SystemInfo}
    (hv : alGet systems errorsId = some v) (id : SysId) :
    registerInErrors systems id
      = some (alInsert systems errorsId { v with registered := v.registered ++ [id] }) := by
  rw [registerInErrors]
  exact alModify_some _ hv

theorem add_system_eq {s : Stage} {id : SysId} {deps : List SysId} {v : SystemInfo}
    (hv : alGet (alInsert s.systems id ⟨deps, true, false, []⟩) errorsId = some v) :
    s.add_system id deps = some { s with
      need_update := true
      need_init := s.need_init ++ [id]
      systems := alInsert (alInsert s.systems id ⟨deps, true, false, []⟩) errorsId
        { v with registered := v.registered ++ [id] } } := by
  rw [Stage.add_system]
  simp only [registerInErrors_spec hv id]

theorem add_once_system_eq {s : Stage} {id : SysId} {deps : List SysId} {v : SystemInfo}
    (hv : alGet (alInsert s.systems id ⟨deps, true, true, []⟩) errorsId = some v) :
    s.add_once_system id deps = some { s with
      need_update := true
      need_init := s.need_init ++ [id]
      systems := alInsert (alInsert s.systems id ⟨deps, true, true, []⟩) errorsId
        { v with registered := v.registered ++ [id] } } := by
  rw [Stage.add_once_system]
  simp only [registerInErrors_spec hv id]

/-- Inserting a record that keeps the once flag of whatever it replaces
preserves the `ErrorsKept` invariant. -/
theorem ErrorsKept_insert {systems : List (SysId × SystemInfo)} {id : SysId}
    {v v' : SystemInfo} (hv : alGet systems id = some v)
    (honce' : v'.is_once = v.is_once)
    (hkept : ∃ info, alGet systems errorsId = some info ∧ info.is_once = false) :
    ∃ info, alGet (alInsert systems id v') errorsId = some info ∧
      info.is_once = false := by
  obtain ⟨einfo, he, honce⟩ := hkept
  by_cases hid : id = errorsId
  · subst hid
    have hve : v = einfo := by
      rw [hv] at he
      injection he
    refine ⟨v', alGet_alInsert_self _ _ _, ?_⟩
    rw [honce', hve, honce]
  · refine ⟨einfo, ?_, honce⟩
    rw [alGet_alInsert_ne _ _ _ _ (fun h => hid h.symm)]
    exact he

/-- C10 counterexample: re-registering the built-in `Errors` system through
`add_once_system` once-marks it, and the next `run()` removes the record —
the registry invariant claimed by C10 does not survive this core operation,
even though the freshly constructed stage does hold an `Errors` record. -/
theorem c10_counterexample :
    (∃ info, alGet Stage.new.systems errorsId = some info) ∧
    (∃ s1 s2 : Stage, ∃ tr : List SysId,
      Stage.new.add_once_system errorsId [] = some s1 ∧
      s1.run = some (s2, tr) ∧
      alGet s2.systems errorsId = none) := by
  refine ⟨⟨⟨[], false, false, [1]⟩, rfl⟩, ?_⟩
  refine ⟨⟨[(1, ⟨[], true, true, [1]⟩)], true, [], [1, 1]⟩, ⟨[], true, [1], []⟩, [1],
    rfl, ?_, rfl⟩
  have hupd : (⟨[(1, ⟨[], true, true, [1]⟩)], true, [], [1, 1]⟩ : Stage).update
      = some ⟨[(1, ⟨[], true, true, [1]⟩)], true, [1], [1, 1]⟩ := by
    rw [Stage.update, if_neg (by decide)]
    have h1 : buildInv
        (initInv (graphOf [(1, (⟨[], true, true, [1]⟩ : SystemInfo))]))
        (graphOf [(1, (⟨[], true, true, [1]⟩ : SystemInfo))])
        = some [(1, []), (0, [])] := rfl
    have hic : initCounts (graphOf [(1, (⟨[], true, true, [1]⟩ : SystemInfo))])
        = [(1, 0)] := rfl
    have h2 : kahnSort [(1, []), (0, [])]
        (initCounts (graphOf [(1, (⟨[], true, true, [1]⟩ : SystemInfo))])) []
        = some ([], [1]) := by
      rw [hic, kahnSort_step [(1, []), (0, [])] [(1, 0)] [] 1 [] [] rfl rfl rfl]
      exact kahnSort_none _ _ _ rfl
    have h3 : alGet [(1, ([] : List SysId)), (0, [])] endId = some [] := rfl
    have h4 : decrList [] ([] : List (SysId × Nat)) = some [] := rfl
    have h5 : kahnSort [(1, []), (0, [])] ([] : List (SysId × Nat)) [1]
        = some ([], [1]) := kahnSort_none _ _ _ rfl
    simp only [h1, h2, h3, h4, h5]
  have hrun := @run_build _ _ hupd (by decide) [1] [1] rfl
  exact hrun

/-- C10 (amended): every stage built by `new()`/`from_world()` carries the
`Errors` record, inactive and not once-marked; the record (never once-marked)
survives every core operation — registering systems (any id via
`add_system`; any id other than `Errors` itself via `add_once_system`),
activation toggles, dependency edits, rebuilds, and full passes — and every
`add_system` call registers the added system's identity inside the `Errors`
registry.  (The one exception, re-registering `Errors` itself as a once
system, is exhibited by the counterexample.) -/
theorem c10_errors_registry_kept :
    ErrorsKept Stage.new ∧ ErrorsKept Stage.from_world ∧
    (∃ info, alGet Stage.new.systems errorsId = some info ∧
      info.is_active = false ∧ info.is_once = false) ∧
    (∀ (s : Stage) (id : SysId) (deps : List SysId), ErrorsKept s →
      ∃ s', s.add_system id deps = some s' ∧ ErrorsKept s' ∧
        ∃ info, alGet s'.systems errorsId = some info ∧ id ∈ info.registered) ∧
    (∀ (s : Stage) (id : SysId) (deps : List SysId) (s' : Stage), id ≠ errorsId →
      s.add_once_system id deps = some s' → ErrorsKept s → ErrorsKept s') ∧
    (∀ (s : Stage) (id : SysId) (s' : Stage), s.deactivate_dyn id = some s' →
      ErrorsKept s → ErrorsKept s') ∧
    (∀ (s : Stage) (id : SysId) (s' : Stage), s.activate_dyn id = some s' →
      ErrorsKept s → ErrorsKept s') ∧
    (∀ (s : Stage) (a b : SysId) (s' : Stage), s.add_dependency a b = some s' →
      ErrorsKept s → ErrorsKept s') ∧
    (∀ (s : Stage) (a b : SysId) (s' : Stage), s.remove_dependency a b = some s' →
      ErrorsKept s → ErrorsKept s') ∧
    (∀ (s s' : Stage), s.update = some s' → ErrorsKept s → ErrorsKept s') ∧
    (∀ (s s' : Stage) (tr : List SysId), s.run = some (s', tr) →
      ErrorsKept s → ErrorsKept s') := by
  refine ⟨⟨⟨[], false, false, [1]⟩, rfl, rfl⟩, ⟨⟨[], false, false, [1]⟩, rfl, rfl⟩,
    ⟨⟨[], false, false, [1]⟩, rfl, rfl, rfl⟩, ?_, ?_, ?_, ?_, ?_, ?_, ?_, ?_⟩
  · intro s id deps hkept
    obtain ⟨einfo, he, honce⟩ := hkept
    by_cases hid : id = errorsId
    · subst hid
      have hv : alGet (alInsert s.systems errorsId ⟨deps, true, false, []⟩) errorsId
          = some ⟨deps, true, false, []⟩ := alGet_alInsert_self _ _ _
      refine ⟨_, add_system_eq hv, ⟨_, alGet_alInsert_self _ _ _, rfl⟩,
        _, alGet_alInsert_self _ _ _, by simp⟩
    · have hv : alGet (alInsert s.systems id ⟨deps, true, false, []⟩) errorsId
          = some einfo := by
        rw [alGet_alInsert_ne _ _ _ _ (fun h => hid h.symm)]
        exact he
      refine ⟨_, add_system_eq hv, ⟨_, alGet_alInsert_self _ _ _, honce⟩,
        _, alGet_alInsert_self _ _ _, by simp⟩
  · intro s id deps s' hid heq hkept
    obtain ⟨einfo, he, honce⟩ := hkept
    have hv : alGet (alInsert s.systems id ⟨deps, true, true, []⟩) errorsId
        = some einfo := by
      rw [alGet_alInsert_ne _ _ _ _ (fun h => hid h.symm)]
      exact he
    rw [add_once_system_eq hv] at heq
    injection heq with heq
    rw [← heq]
    exact ⟨_, alGet_alInsert_self _ _ _, honce⟩
  · intro s id s' heq hkept
    rw [Stage.deactivate_dyn] at heq
    cases hv : alGet s.systems id with
    | none =>
        rw [alModify_eq_none.mpr (alGet_eq_none.mp hv)] at heq
        exact Option.noConfusion heq
    | some v =>
        simp only [alModify_some _ hv] at heq
        injection heq with heq
        rw [← heq]
        exact ErrorsKept_insert hv rfl hkept
  · intro s id s' heq hkept
    rw [Stage.activate_dyn] at heq
    cases hv : alGet s.systems id with
    | none =>
        rw [alModify_eq_none.mpr (alGet_eq_none.mp hv)] at heq
        exact Option.noConfusion heq
    | some v =>
        simp only [alModify_some _ hv] at heq
        injection heq with heq
        rw [← heq]
        exact ErrorsKept_insert hv rfl hkept
  · intro s a b s' heq hkept
    rw [Stage.add_dependency] at heq
    cases hv : alGet s.systems a with
    | none =>
        simp only [hv] at heq
        exact Option.noConfusion heq
    | some v =>
        simp only [hv] at heq
        by_cases hb : b ∈ v.dependencies
        · rw [if_pos hb] at heq
          exact Option.noConfusion heq
        · rw [if_neg hb] at heq
          injection heq with heq
          rw [← heq]
          exact ErrorsKept_insert hv rfl hkept
  · intro s a b s' heq hkept
    rw [Stage.remove_dependency] at heq
    cases hv : alGet s.systems a with
    | none =>
        simp only [hv] at heq
        exact Option.noConfusion heq
    | some v =>
        simp only [hv] at heq
        by_cases hb : b ∈ v.dependencies
        · rw [if_pos hb] at heq
          injection heq with heq
          rw [← heq]
          exact ErrorsKept_insert hv rfl hkept
        · rw [if_neg hb] at heq
          exact Option.noConfusion heq
  · intro s s' heq hkept
    obtain ⟨einfo, he, honce⟩ := hkept
    refine ⟨einfo, ?_, honce⟩
    rw [(update_fields heq).1]
    exact he
  · intro s s' tr heq hkept
    obtain ⟨s1, rm, hu, hini, hex, hs'⟩ := run_spec heq
    obtain ⟨einfo, he, honce⟩ := hkept
    have hsys : s1.systems = s.systems := (update_fields hu).1
    have hnotrm : errorsId ∉ rm := by
      intro hmem
      have hflag := (execPass_trace_flags hex).2 errorsId hmem
      rw [onceIn, hsys, he] at hflag
      simp [honce] at hflag
    refine ⟨einfo, ?_, honce⟩
    rw [hs']
    show alGet (rm.foldl (fun m i => alErase m i) s1.systems) errorsId = some einfo
    rw [alGet_foldlErase_not_mem _ _ _ hnotrm, hsys]
    exact he

/-- C10 witness: adding a fresh system to a freshly constructed stage keeps
the `Errors` record and registers the new system's identity with it. -/
theorem c10_witness :
    ErrorsKept Stage.new ∧
    (∃ s', Stage.new.add_system 5 [] = some s' ∧ ErrorsKept s' ∧
      ∃ info, alGet s'.systems errorsId = some info ∧ 5 ∈ info.registered) := by
  have hkept : ErrorsKept Stage.new := ⟨⟨[], false, false, [1]⟩, rfl, rfl⟩
  exact ⟨hkept, c10_errors_registry_kept.2.2.2.1 Stage.new 5 [] hkept⟩

end XEcs
